import Mathlib

/-! # assert-true/normalizer: the schedule extractor and the lecturer normaliser

A shallow embedding of `src/main.go`.  The program reads course rows from a
source database, pulls a schedule table out of the HTML stored with every
course (`getTimeSchedule`) and collects the distinct lecturer names
(`normalizeLecturers`).

Conventions of the embedding:

* a Go `string` is a `List Char`; the byte tests the code relies on (digits,
  `/`, `:`, blank, comma) only ever look at ASCII bytes, so working on code
  points gives the same answers;
* `log.Fatal` and a run-time panic end the run: functions that can reach them
  return `Except Fatal _`;
* a `*html.Node` is a `Ref`: the position of the node in the document (the
  child indices leading to it from the root) together with the subtree found
  there; two pointers are equal exactly when the positions are;
* the parts of `goquery`, `cascadia`, `strings` and `time` that the program
  calls are written out after their Go sources, as documented for the current
  releases; `time.Parse` is specialised to the one layout the program passes,
  `2/1/2006 15:04`;
* the HTML parser and the two SQL queries are inputs of the model.
-/

namespace Normalizer

/-- A Go string, as its sequence of characters. -/
abbrev GoString := List Char

/-! ## `html.Node` -/

/-- The `html.NodeType` constants. -/
inductive NodeType
  | ErrorNode
  | TextNode
  | DocumentNode
  | ElementNode
  | CommentNode
  | DoctypeNode
deriving DecidableEq, Repr

/-- An `html.Attribute` (the namespace is never read by the program). -/
structure Attribute where
  Key : GoString
  Val : GoString
deriving DecidableEq, Repr

/-- An `html.Node` with its children, first child first. -/
inductive Node where
  | mk (type : NodeType) (Data : GoString) (Attr : List Attribute) (children : List Node)

/-- Field `Type` of a node. -/
def Node.type : Node → NodeType
  | .mk t _ _ _ => t

/-- Field `Data` of a node: the tag of an element, the text of a text node. -/
def Node.Data : Node → GoString
  | .mk _ d _ _ => d

/-- Field `Attr` of a node. -/
def Node.Attr : Node → List Attribute
  | .mk _ _ a _ => a

/-- The children of a node, `FirstChild` first, following `NextSibling`. -/
def Node.children : Node → List Node
  | .mk _ _ _ cs => cs

/-- A node pointer: where the node stands in the document, and the node. -/
structure Ref where
  path : List Nat
  node : Node

/-- A `goquery.Selection`, as its field `Nodes`. -/
abbrev Selection := List Ref

/-! ## `cascadia` and `goquery` -/

/-- The matcher compiled from a bare tag selector such as `table`: an element
node whose tag is the given one. -/
def typeSelector (tag : GoString) (n : Node) : Bool :=
  decide (n.type = NodeType.ElementNode) && decide (n.Data = tag)

mutual
/-- The recursion of `Selector.MatchAll`: the node itself when it matches,
then the matches below each child, in document order. -/
def matchAllInto (m : Node → Bool) (path : List Nat) : Node → List Ref
  | .mk t d a cs =>
    (if m (.mk t d a cs) then [⟨path, .mk t d a cs⟩] else []) ++ matchAllChildren m path 0 cs
/-- The loop of `matchAllInto` over the children, the next child having index `i`. -/
def matchAllChildren (m : Node → Bool) (path : List Nat) (i : Nat) : List Node → List Ref
  | [] => []
  | c :: cs => matchAllInto m (path ++ [i]) c ++ matchAllChildren m path (i + 1) cs
end

/-- `Selector.MatchAll` at a node pointer. -/
def MatchAll (m : Node → Bool) (r : Ref) : List Ref :=
  matchAllInto m r.path r.node

/-- The children of a node as pointers, the first child having index `i`. -/
def childRefsFrom (path : List Nat) : Nat → List Node → List Ref
  | _, [] => []
  | i, c :: cs => ⟨path ++ [i], c⟩ :: childRefsFrom path (i + 1) cs

/-- The children of a node as pointers. -/
def childRefs (r : Ref) : List Ref :=
  childRefsFrom r.path 0 r.node.children

/-- The helper `appendWithoutDuplicates`: a node already in the target is not
appended again. -/
def appendWithoutDuplicates (target : List Ref) (nodes : List Ref) : List Ref :=
  nodes.foldl
    (fun acc n => if acc.any (fun t => decide (t.path = n.path)) then acc else acc ++ [n])
    target

/-- The helper `mapNodes`: the results of `f` on each node, without duplicates. -/
def mapNodes (nodes : List Ref) (f : Ref → List Ref) : List Ref :=
  nodes.foldl (fun result n => appendWithoutDuplicates result (f n)) []

/-- The helper `findWithMatcher`: the matches strictly below each node, looked
for under its element children. -/
def findWithMatcher (nodes : List Ref) (m : Node → Bool) : List Ref :=
  mapNodes nodes (fun n =>
    ((childRefs n).filter (fun c => decide (c.node.type = NodeType.ElementNode))).flatMap (MatchAll m))

/-- The method `Selection.Find` with a tag selector. -/
def Find (s : Selection) (tag : GoString) : Selection :=
  findWithMatcher s (typeSelector tag)

/-- The method `Document.FindNodes`: the selection made of the given nodes. -/
def FindNodes (nodes : List Ref) : Selection :=
  nodes

/-- The method `Selection.FilterFunction`: the nodes on which `f`, given the
index and the one-node selection, answers true. -/
def FilterFunction (s : Selection) (f : Nat → Selection → Bool) : Selection :=
  (s.enum.filter (fun p => f p.1 [p.2])).map (fun p => p.2)

/-- The method `Selection.First`: the first node, and the empty selection when
there is none. -/
def First (s : Selection) : Selection :=
  s.take 1

/-- The helper `getAttributeValue` behind `Selection.Attr`: the value of the
first attribute of the first node with the given key; `none` stands for
`exists = false`. -/
def Attr (s : Selection) (attrName : GoString) : Option GoString :=
  match s with
  | [] => none
  | n :: _ => (n.node.Attr.find? (fun a => decide (a.Key = attrName))).map (fun a => a.Val)

mutual
/-- The closure inside `Selection.Text`: the data of the text nodes of a
subtree, in document order. -/
def nodeText : Node → GoString
  | .mk t d _ cs => (if t = NodeType.TextNode then d else []) ++ nodeTextChildren cs
/-- The loop of `nodeText` over the children. -/
def nodeTextChildren : List Node → GoString
  | [] => []
  | c :: cs => nodeText c ++ nodeTextChildren cs
end

/-- The method `Selection.Text`. -/
def Text (s : Selection) : GoString :=
  s.flatMap (fun n => nodeText n.node)

/-! ## `strings` -/

/-- The test `unicode.IsSpace`: the Latin-1 space characters and the
characters of the Unicode property White_Space. -/
def isSpace (c : Char) : Bool :=
  let n := c.toNat
  (9 ≤ n && n ≤ 13) || n == 0x20 || n == 0x85 || n == 0xA0 || n == 0x1680 ||
    (0x2000 ≤ n && n ≤ 0x200A) || n == 0x2028 || n == 0x2029 || n == 0x202F ||
    n == 0x205F || n == 0x3000

/-- The function `strings.TrimSpace`: leading and trailing white space removed. -/
def TrimSpace (s : GoString) : GoString :=
  ((s.dropWhile isSpace).reverse.dropWhile isSpace).reverse

/-- The function `strings.Split` with the one-character separator `sep`:
the pieces between the separators, the piece being read held in `cur`. -/
def splitLoop (sep : Char) : GoString → GoString → List GoString
  | [], cur => [cur]
  | c :: rest, cur =>
    if c = sep then cur :: splitLoop sep rest [] else splitLoop sep rest (cur ++ [c])

/-- The call `strings.Split(s, ",")`. -/
def Split (s : GoString) (sep : Char) : List GoString :=
  splitLoop sep s []

/-! ## `time`, for the layout `2/1/2006 15:04` -/

/-- A `time.Time` built by `Parse` with this layout: the civil fields handed
to `time.Date`, all in range, so that `Date` normalises nothing; seconds and
nanoseconds are zero and the location is UTC. -/
structure Time where
  year : Int
  month : Nat
  day : Nat
  hour : Nat
  min : Nat
deriving DecidableEq, Repr

/-- The method `Time.Before`: for in-range civil fields of one location the
instants are ordered as the fields are, most significant first. -/
def Time.Before (t u : Time) : Bool :=
  decide (t.year < u.year) || (decide (t.year = u.year) &&
    (decide (t.month < u.month) || (decide (t.month = u.month) &&
      (decide (t.day < u.day) || (decide (t.day = u.day) &&
        (decide (t.hour < u.hour) || (decide (t.hour = u.hour) && decide (t.min < u.min))))))))

/-- The relation `t <= u` on instants: `u` is not before `t`. -/
def Time.le (t u : Time) : Prop :=
  u.Before t = false

instance (t u : Time) : Decidable (t.le u) := by
  unfold Time.le
  exact inferInstance

/-- The call `time.Date(year, month, day, hour, min, 0, 0, UTC)`. -/
def Date (year : Int) (month day hour min : Nat) : Time :=
  { year := year, month := month, day := day, hour := hour, min := min }

/-- The byte test `'0' <= c && c <= '9'`. -/
def isDigitByte (c : Char) : Bool :=
  decide (48 ≤ c.toNat) && decide (c.toNat ≤ 57)

/-- The helper `isDigit`: whether `s[i]` exists and is a decimal digit. -/
def isDigit (s : GoString) (i : Nat) : Bool :=
  match s.get? i with
  | none => false
  | some c => isDigitByte c

/-- The value `int(c - '0')` of a digit. -/
def digitVal (c : Char) : Nat :=
  c.toNat - 48

/-- The helper `getnum`: a one- or two-digit number at the head of `s` and the
rest of `s`; with `fixed` two digits are required.  `none` stands for `errBad`. -/
def getnum (s : GoString) (fixed : Bool) : Option (Nat × GoString) :=
  if !isDigit s 0 then none
  else if !isDigit s 1 then
    if fixed then none
    else
      match s with
      | c :: rest => some (digitVal c, rest)
      | [] => none
  else
    match s with
    | c0 :: c1 :: rest => some (digitVal c0 * 10 + digitVal c1, rest)
    | _ => none

/-- The helper `cutspace`: leading blanks removed. -/
def cutspace : GoString → GoString
  | [] => []
  | c :: rest => if c = ' ' then cutspace rest else c :: rest

/-- The loop of the helper `skip`, run at most `fuel` times: the layout text
`pfx` is matched against the head of `value`, a blank of the layout standing
for any number of blanks.  `none` stands for `errBad`. -/
def skipLoop : Nat → GoString → GoString → Option GoString
  | 0, pfx, value => if pfx.length > 0 then none else some value
  | fuel + 1, pfx, value =>
    match pfx with
    | [] => some value
    | p :: pfxRest =>
      if p = ' ' then
        match value with
        | [] => skipLoop fuel (cutspace (p :: pfxRest)) (cutspace value)
        | v :: _ =>
          if v ≠ ' ' then none
          else skipLoop fuel (cutspace (p :: pfxRest)) (cutspace value)
      else
        match value with
        | [] => none
        | v :: valueRest => if v ≠ p then none else skipLoop fuel pfxRest valueRest

/-- The helper `skip`; every turn of its loop shortens the layout text, so
its length bounds the number of turns. -/
def skip (value pfx : GoString) : Option GoString :=
  skipLoop pfx.length pfx value

/-- The helper `leadingInt`: the number written by the leading digits of `s`,
accumulated in `x`, and the rest of `s`.  `none` stands for `errLeadingInt`. -/
def leadingInt : GoString → Nat → Option (Nat × GoString)
  | [], x => some (x, [])
  | c :: rest, x =>
    if c.toNat < 48 ∨ c.toNat > 57 then some (x, c :: rest)
    else if x > 2 ^ 63 / 10 then none
    else if x * 10 + (c.toNat - 48) > 2 ^ 63 then none
    else leadingInt rest (x * 10 + (c.toNat - 48))

/-- The helper `atoi`: an optionally signed decimal number filling all of `s`. -/
def atoi (s : GoString) : Option Int :=
  let signed : Bool × GoString :=
    match s with
    | c :: rest => if c = '-' ∨ c = '+' then (decide (c = '-'), rest) else (false, s)
    | [] => (false, s)
  match leadingInt signed.2 0 with
  | none => none
  | some (q, rem) =>
    if rem.length > 0 then none
    else some (if signed.1 then -(q : Int) else (q : Int))

/-- The helper `isLeap`. -/
def isLeap (year : Int) : Bool :=
  decide (year % 4 = 0) && (decide (year % 100 ≠ 0) || decide (year % 400 = 0))

/-- The table `daysBefore`: the days of a non-leap year before the end of
month `m`, `daysBefore[0] = 0`. -/
def daysBefore : List Nat :=
  [0, 31, 31 + 28, 31 + 28 + 31, 31 + 28 + 31 + 30, 31 + 28 + 31 + 30 + 31,
   31 + 28 + 31 + 30 + 31 + 30, 31 + 28 + 31 + 30 + 31 + 30 + 31,
   31 + 28 + 31 + 30 + 31 + 30 + 31 + 31, 31 + 28 + 31 + 30 + 31 + 30 + 31 + 31 + 30,
   31 + 28 + 31 + 30 + 31 + 30 + 31 + 31 + 30 + 31,
   31 + 28 + 31 + 30 + 31 + 30 + 31 + 31 + 30 + 31 + 30,
   31 + 28 + 31 + 30 + 31 + 30 + 31 + 31 + 30 + 31 + 30 + 31]

/-- The helper `daysIn`, called with a month from 1 to 12. -/
def daysIn (m : Nat) (year : Int) : Nat :=
  if m = 2 ∧ isLeap year = true then 29
  else daysBefore.getD m 0 - daysBefore.getD (m - 1) 0

/-- The function `time.Parse("2/1/2006 15:04", value)`.  The layout splits
into the chunks day `2`, `/` month `1`, `/` year `2006`, blank hour `15`,
`:` minute `04`, and the end; each chunk first skips its literal text and
then reads its number.  `none` stands for a returned `*ParseError`. -/
def Parse (value : GoString) : Option Time :=
  -- stdDay
  match getnum value false with
  | none => none
  | some (day, value) =>
  -- "/" stdNumMonth
  match skip value ['/'] with
  | none => none
  | some value =>
  match getnum value false with
  | none => none
  | some (month, value) =>
  if month ≤ 0 ∨ 12 < month then none else
  -- "/" stdLongYear
  match skip value ['/'] with
  | none => none
  | some value =>
  if value.length < 4 ∨ isDigit value 0 = false then none else
  match atoi (value.take 4) with
  | none => none
  | some year =>
  -- " " stdHour
  match skip (value.drop 4) [' '] with
  | none => none
  | some value =>
  match getnum value false with
  | none => none
  | some (hour, value) =>
  if 24 ≤ hour then none else
  -- ":" stdZeroMinute
  match skip value [':'] with
  | none => none
  | some value =>
  match getnum value true with
  | none => none
  | some (min, value) =>
  if 60 ≤ min then none else
  -- the end of the layout
  if value.length ≠ 0 then none else
  -- the day of the month is validated last
  if day < 1 ∨ day > daysIn month year then none else
  some (Date year month day hour min)

/-! ## The program: `src/main.go` -/

/-- The ways `getTimeSchedule` ends the run without returning: its `log.Fatal`
calls after `Scan`, after `NewDocumentFromReader` and after `time.Parse`, and
the run-time panic of an index out of range. -/
inductive Fatal
  | scan
  | document
  | dateTimeParse
  | indexOutOfRange
deriving DecidableEq, Repr

/-- The source database, as far as the two queries read it. -/
structure SourceDB where
  /-- The rows of `SELECT lecturer FROM courses WHERE lecturer != ''`. -/
  lecturerRows : List GoString
  /-- The row of `SELECT rawDetail FROM courses WHERE rootNumber = $1 AND sn = $2`
  scanned into a string; `none` when `Scan` returns an error. -/
  rawDetail : Int → Int → Option GoString

/-- The struct `Lecturer`. -/
structure Lecturer where
  id : Int
  name : GoString
deriving DecidableEq, Repr

/-- The struct `Course`. -/
structure Course where
  id : Int
  rootNumber : Int
  sn : Int
  title : GoString
deriving DecidableEq, Repr

/-- The struct `CourseDate`; the fields `from` and `to` are `from_` and `to_`. -/
structure CourseDate where
  id : Int
  courseId : Int
  from_ : Time
  to_ : Time
  assessment : Bool
deriving DecidableEq, Repr

/-- The constant `ColWeekday = iota + 1`. -/
def ColWeekday : Nat := 1
/-- The constant `ColDate`. -/
def ColDate : Nat := 2
/-- The constant `ColBeg`. -/
def ColBeg : Nat := 3
/-- The constant `ColEnd`. -/
def ColEnd : Nat := 4
/-- The constant `ColAssesment`. -/
def ColAssesment : Nat := 5

/-- A write `m[k] = true` into the `map[string]bool`, the map being the list
of its keys. -/
def mapSet (m : List GoString) (k : GoString) : List GoString :=
  if k ∈ m then m else m ++ [k]

/-- The first loop of `normalizeLecturers`: every row is split at the commas
and every trimmed piece becomes a key of the map. -/
def lecturerKeys (rows : List GoString) : List GoString :=
  rows.foldl (fun lecturers name =>
    (Split name ',').foldl (fun lecturers n => mapSet lecturers (TrimSpace n)) lecturers) []

/-- The function `normalizeLecturers`.  A `range` over a Go map visits the
keys in an order the language leaves open: `rangeOrder` is that order. -/
def normalizeLecturers (rangeOrder : List GoString → List GoString) (db : SourceDB) :
    List Lecturer :=
  (rangeOrder (lecturerKeys db.lecturerRows)).foldl
    (fun result k => result ++ [{ id := 0, name := k }]) []

/-- An index expression `tds[i]`: out of range it panics. -/
def index (tds : List Ref) (i : Nat) : Except Fatal Ref :=
  match tds.get? i with
  | some td => .ok td
  | none => .error Fatal.indexOutOfRange

/-- The function literal passed to `FilterFunction` in `getTimeSchedule`. -/
def tableFilter (_i : Nat) (selection : Selection) : Bool :=
  let hasBorder := (Attr selection "border".toList).isSome
  let cols := (Find (First (Find selection "colgroup".toList)) "col".toList).length
  hasBorder && cols == 9

/-- The selection step of `getTimeSchedule` (lines 189 to 195): the tables of
the document that pass `tableFilter`, then `First`. -/
def selectTable (root : Node) : Selection :=
  let doc : Selection := [⟨[], root⟩]
  let tables := FilterFunction (Find doc "table".toList) tableFilter
  First tables

/-- The data cells of a row: `doc.FindNodes(tr).Find("td").Nodes`. -/
def rowCells (tr : Ref) : List Ref :=
  Find (FindNodes [tr]) "td".toList

/-- The body of the loop over the rows (lines 200 to 231), `result` being the
slice built so far. -/
def rowBody (c : Course) (result : List CourseDate) (tr : Ref) :
    Except Fatal (List CourseDate) :=
  let tds := rowCells tr
  if tds.length = 0 then .ok result
  else
    match index tds ColDate with
    | .error e => .error e
    | .ok tdDate =>
    match index tds ColBeg with
    | .error e => .error e
    | .ok tdBeg =>
    match Parse (Text (FindNodes [tdDate]) ++ " ".toList ++ Text (FindNodes [tdBeg])) with
    | none => .error Fatal.dateTimeParse
    | some beginning =>
    match index tds ColDate with
    | .error e => .error e
    | .ok tdDate2 =>
    match index tds ColEnd with
    | .error e => .error e
    | .ok tdEnd =>
    match Parse (Text (FindNodes [tdDate2]) ++ " ".toList ++ Text (FindNodes [tdEnd])) with
    | none => .error Fatal.dateTimeParse
    | some end_ =>
    match index tds ColAssesment with
    | .error e => .error e
    | .ok tdAssesment =>
    let assessment := decide (Text (FindNodes [tdAssesment]) ≠ "No".toList)
    .ok (result ++ [{ id := 0, courseId := c.id, assessment := assessment,
                      from_ := beginning, to_ := end_ }])

/-- The loop `for _, tr := range trs.Nodes`. -/
def rowLoop (c : Course) : List Ref → List CourseDate → Except Fatal (List CourseDate)
  | [], result => .ok result
  | tr :: trs, result =>
    match rowBody c result tr with
    | .error e => .error e
    | .ok result => rowLoop c trs result

/-- The part of the loop body over the courses that follows the parsing of
the document (lines 189 to 232). -/
def extractDocument (c : Course) (root : Node) (result : List CourseDate) :
    Except Fatal (List CourseDate) :=
  let table := selectTable root
  let trs := Find table "tr".toList
  rowLoop c trs result

/-- The body of the loop over the courses (lines 178 to 232).  The parser
behind `goquery.NewDocumentFromReader` is the input `parse`, `none` being a
returned error. -/
def courseBody (db : SourceDB) (parse : GoString → Option Node) (result : List CourseDate)
    (c : Course) : Except Fatal (List CourseDate) :=
  match db.rawDetail c.rootNumber c.sn with
  | none => .error Fatal.scan
  | some src =>
    match parse src with
    | none => .error Fatal.document
    | some root => extractDocument c root result

/-- The loop `for _, c := range courses`. -/
def courseLoop (db : SourceDB) (parse : GoString → Option Node) :
    List Course → List CourseDate → Except Fatal (List CourseDate)
  | [], result => .ok result
  | c :: cs, result =>
    match courseBody db parse result c with
    | .error e => .error e
    | .ok result => courseLoop db parse cs result

/-- The function `getTimeSchedule`. -/
def getTimeSchedule (db : SourceDB) (parse : GoString → Option Node) (courses : List Course) :
    Except Fatal (List CourseDate) :=
  courseLoop db parse courses []

/-! ## Notions used to state the properties -/

/-- The text of the data cell of a row at index `i`, when the row has one. -/
def cellText (tr : Ref) (i : Nat) : Option GoString :=
  ((rowCells tr).get? i).map (fun td => Text (FindNodes [td]))

/-- The records a row adds to an empty result; none when the row ends the run. -/
def rowRecords (c : Course) (tr : Ref) : List CourseDate :=
  match rowBody c [] tr with
  | .ok rs => rs
  | .error _ => []

/-- The records a course adds to an empty result; none when it ends the run. -/
def courseRecords (db : SourceDB) (parse : GoString → Option Node) (c : Course) :
    List CourseDate :=
  match courseBody db parse [] c with
  | .ok rs => rs
  | .error _ => []

/-- All the `table` elements of a document, in document order. -/
def allTables (root : Node) : List Ref :=
  Find [⟨[], root⟩] "table".toList

/-- The fingerprint of the specification, in its words: the table declares a
border attribute, and it declares a column group (a `colgroup` child of the
table) with exactly 9 column definitions (`col` children of that group). -/
def declaresFingerprint (table : Ref) : Bool :=
  (table.node.Attr.any (fun a => decide (a.Key = "border".toList))) &&
    table.node.children.any (fun g =>
      typeSelector "colgroup".toList g &&
        decide ((g.children.filter (typeSelector "col".toList)).length = 9))

mutual
/-- The nodes below a node, in document order. -/
def descendants : Node → List Node
  | .mk _ _ _ cs => descendantsOfList cs
/-- The nodes of a list of siblings and the nodes below them, in document order. -/
def descendantsOfList : List Node → List Node
  | [] => []
  | c :: cs => c :: (descendants c ++ descendantsOfList cs)
end

mutual
/-- Whether, in a node and below it, only element nodes have children. -/
def elementsOnly : Node → Bool
  | .mk t _ _ cs => (decide (t = NodeType.ElementNode) || cs.isEmpty) && elementsOnlyList cs
/-- The test `elementsOnly` on every node of a list. -/
def elementsOnlyList : List Node → Bool
  | [] => true
  | c :: cs => elementsOnly c && elementsOnlyList cs
end

/-- A document as the HTML parser builds it: below the root, only element
nodes have children. -/
def wellFormed (root : Node) : Bool :=
  elementsOnlyList root.children

/-- Whether a node has a `border` attribute. -/
def hasBorder (n : Node) : Bool :=
  n.Attr.any (fun a => decide (a.Key = "border".toList))

/-- The first `colgroup` element below a node, in document order. -/
def firstColgroup (n : Node) : Option Node :=
  (descendants n).find? (typeSelector "colgroup".toList)

/-- The test of the code on a table, in words: the table has a border
attribute, and the first `colgroup` element below it, in document order, has
exactly 9 `col` elements below it. -/
def passesTest (table : Node) : Bool :=
  hasBorder table &&
    match firstColgroup table with
    | none => false
    | some g => decide (((descendants g).filter (typeSelector "col".toList)).length = 9)

/-- The number written by a list of decimal digits. -/
def decimal (s : GoString) : Nat :=
  s.foldl (fun x c => 10 * x + digitVal c) 0

/-- One or two decimal digits. -/
def OneOrTwoDigits (s : GoString) : Prop :=
  (s.length = 1 ∨ s.length = 2) ∧ ∀ c ∈ s, isDigitByte c = true

/-- Exactly `n` decimal digits. -/
def NDigits (n : Nat) (s : GoString) : Prop :=
  s.length = n ∧ ∀ c ∈ s, isDigitByte c = true

/-- The texts the layout `2/1/2006 15:04` accepts, and the time each one
denotes: one or two digits of day, `/`, one or two digits of month, `/`, four
digits of year, one or more blanks, one or two digits of hour, `:`, two digits
of minute; the month from 1 to 12, the day from 1 to the length of the month,
the hour below 24 and the minute below 60. -/
def Accepted (s : GoString) (t : Time) : Prop :=
  ∃ (d m y h mi : GoString) (k : Nat),
    s = d ++ '/' :: (m ++ '/' :: (y ++ (List.replicate (k + 1) ' ' ++ (h ++ ':' :: mi)))) ∧
    OneOrTwoDigits d ∧ OneOrTwoDigits m ∧ NDigits 4 y ∧ OneOrTwoDigits h ∧ NDigits 2 mi ∧
    1 ≤ decimal m ∧ decimal m ≤ 12 ∧
    1 ≤ decimal d ∧ decimal d ≤ daysIn (decimal m) (decimal y) ∧
    decimal h < 24 ∧ decimal mi < 60 ∧
    t = Date (decimal y) (decimal m) (decimal d) (decimal h) (decimal mi)

/-- The decimal digit of a number below ten. -/
def digitChar (n : Nat) : Char :=
  Char.ofNat (48 + n)

/-- A number below 100 written with two digits, zero-padded. -/
def twoDigits (n : Nat) : GoString :=
  [digitChar (n / 10), digitChar (n % 10)]

/-- A number below 100 written without padding. -/
def unpadded (n : Nat) : GoString :=
  if n < 10 then [digitChar n] else twoDigits n

/-- A number below 10000 written with four digits. -/
def fourDigits (n : Nat) : GoString :=
  [digitChar (n / 1000), digitChar (n / 100 % 10), digitChar (n / 10 % 10), digitChar (n % 10)]

/-- A date written `D/M/YYYY`: day and month not zero-padded, 4-digit year. -/
def renderDate (d m y : Nat) : GoString :=
  unpadded d ++ '/' :: (unpadded m ++ '/' :: fourDigits y)

/-- A time of day written `HH:MM`: 24-hour zero-padded hour, zero-padded minute. -/
def renderTime (h mi : Nat) : GoString :=
  twoDigits h ++ ':' :: twoDigits mi

/-- A date of the calendar with a 4-digit year. -/
def ValidDate (d m y : Nat) : Prop :=
  1 ≤ m ∧ m ≤ 12 ∧ 1 ≤ d ∧ d ≤ daysIn m (y : Int) ∧ y ≤ 9999

/-- A time of the 24-hour day. -/
def ValidTime (h mi : Nat) : Prop :=
  h < 24 ∧ mi < 60

/-- The pattern of the specification, in its words: a text conforms to
`D/M/YYYY` + `HH:MM` when it is a valid date written `D/M/YYYY`, one blank,
and a valid time written `HH:MM`. -/
def SpecDateTime (s : GoString) : Prop :=
  ∃ d m y h mi, ValidDate d m y ∧ ValidTime h mi ∧
    s = renderDate d m y ++ ' ' :: renderTime h mi

/-- The function `strings.Join` with a one-character separator. -/
def joinWith (sep : Char) : List GoString → GoString
  | [] => []
  | [p] => p
  | p :: q :: ps => p ++ sep :: joinWith sep (q :: ps)

/-! ## Documents used as examples, built as the HTML parser builds them -/

/-- An element node. -/
def elem (tag : String) (attrs : List (String × String)) (children : List Node) : Node :=
  .mk NodeType.ElementNode tag.toList
    (attrs.map (fun a => { Key := a.1.toList, Val := a.2.toList })) children

/-- A text node. -/
def textNode (data : String) : Node :=
  .mk NodeType.TextNode data.toList [] []

/-- The document node over `html`, `head` and `body`. -/
def document (body : List Node) : Node :=
  .mk NodeType.DocumentNode [] [] [elem "html" [] [elem "head" [] [], elem "body" [] body]]

/-- A `colgroup` of `n` `col` elements. -/
def colgroup (n : Nat) : Node :=
  elem "colgroup" [] (List.replicate n (elem "col" [] []))

/-- A row of data cells with the given texts; an empty cell has no text node. -/
def dataRow (cells : List String) : Node :=
  elem "tr" [] (cells.map (fun t => elem "td" [] (if t.toList = [] then [] else [textNode t])))

/-- A row of header cells with the given texts; an empty cell has no text node. -/
def headerRow (cells : List String) : Node :=
  elem "tr" [] (cells.map (fun t => elem "th" [] (if t.toList = [] then [] else [textNode t])))

/-- A schedule table: border, nine columns, and the given rows in a `tbody`. -/
def scheduleTable (rows : List Node) : Node :=
  elem "table" [("border", "1")] [colgroup 9, elem "tbody" [] rows]

/-- The row of the example of the specification. -/
def exampleRow : Ref :=
  ⟨[0, 1, 0, 1, 0], dataRow ["1", "Tue", "5/3/2024", "09:00", "11:30", "No"]⟩

/-- The schedule table of `enclosedDocument`. -/
def enclosedSchedule : Node :=
  scheduleTable [dataRow ["1", "Tue", "5/3/2024", "09:00", "11:30", "No", "", "", ""]]

/-- The cell around the schedule table. -/
def enclosingCell : Node :=
  elem "td" [] [enclosedSchedule]

/-- The row around the schedule table. -/
def enclosingRow : Node :=
  elem "tr" [] [enclosingCell]

/-- The body of the layout table. -/
def enclosingBody : Node :=
  elem "tbody" [] [enclosingRow]

/-- The bordered layout table, which has no column group of its own. -/
def enclosingTable : Node :=
  elem "table" [("border", "0")] [enclosingBody]

/-- A page whose schedule table stands inside a cell of a bordered layout
table that has no column group of its own. -/
def enclosedDocument : Node :=
  document [enclosingTable]

/-- A page with a table before the schedule table, a bordered table with two
columns around it, a table inside it and a bordered table with three columns
after it. -/
def surroundedDocument : Node :=
  document [
    elem "table" [] [elem "tbody" [] [dataRow ["menu"]]],
    elem "table" [("border", "0")] [colgroup 2, elem "tbody" [] [elem "tr" [] [elem "td" [] [
      elem "table" [("border", "1")] [colgroup 9, elem "tbody" [] [
        elem "tr" [] [elem "th" [] [elem "table" [] [elem "tbody" [] [headerRow ["Week 10"]]]]],
        dataRow ["1", "Tue", "5/3/2024", "09:00", "11:30", "No", "", "", ""]]]]]]],
    elem "table" [("border", "1")] [colgroup 3, elem "tbody" [] [headerRow ["a", "b", "c"]]]]

/-- A page whose only table has neither a border nor a column group. -/
def plainDocument : Node :=
  document [elem "table" [] [elem "tbody" []
    [dataRow ["1", "Tue", "5/3/2024", "09:00", "11:30", "No"]]]]

/-- A schedule whose begin cell has a one-digit hour. -/
def lenientDocument : Node :=
  document [scheduleTable [dataRow ["1", "Tue", "5/3/2024", "9:00", "11:30", "No", "", "", ""]]]

/-- A schedule whose second row has the begin cell `invalid`. -/
def invalidBeginDocument : Node :=
  document [scheduleTable [
    dataRow ["1", "Tue", "5/3/2024", "09:00", "11:30", "No", "", "", ""],
    dataRow ["2", "Wed", "6/3/2024", "invalid", "11:30", "No", "", "", ""]]]

/-- A schedule whose row begins after it ends. -/
def lateStartDocument : Node :=
  document [scheduleTable [dataRow ["1", "Tue", "5/3/2024", "11:30", "09:00", "No", "", "", ""]]]

/-- A row of four data cells whose begin cell is `invalid`. -/
def fourCellRow : Ref :=
  ⟨[0], dataRow ["1", "Tue", "5/3/2024", "invalid"]⟩

/-- A row of three data cells. -/
def threeCellRow : Ref :=
  ⟨[0], dataRow ["1", "Tue", "5/3/2024"]⟩

/-- The schedule of the first course of the example: a header row and three
data rows. -/
def firstCourseDocument : Node :=
  document [scheduleTable [
    headerRow ["Week", "Day", "Date", "Begin", "End", "Assessment", "", "", ""],
    dataRow ["1", "Tue", "5/3/2024", "09:00", "11:30", "No", "", "", ""],
    dataRow ["2", "Tue", "12/3/2024", "09:00", "11:30", "No", "", "", ""],
    dataRow ["3", "Tue", "19/3/2024", "13:00", "15:00", "Yes", "", "", ""]]]

/-- The schedule of the second course of the example: three data rows. -/
def secondCourseDocument : Node :=
  document [scheduleTable [
    dataRow ["1", "Fri", "8/3/2024", "10:00", "12:00", "No", "", "", ""],
    dataRow ["1", "Fri", "8/3/2024", "10:00", "12:00", "No", "", "", ""],
    dataRow ["2", "Fri", "15/3/2024", "08:15", "09:45", "", "", "", ""]]]

/-- The two courses of the example. -/
def exampleCourses : List Course :=
  [{ id := 11, rootNumber := 1, sn := 1, title := "A".toList },
   { id := 12, rootNumber := 2, sn := 1, title := "B".toList }]

/-- A source database holding, for the course with root number `n`, the
fragment whose text is the digit `n`, and three lecturer rows. -/
def exampleDB : SourceDB :=
  { lecturerRows := ["A,,B".toList, "A, ".toList, " C ,B".toList],
    rawDetail := fun rootNumber _ =>
      if rootNumber = 1 then some "1".toList
      else if rootNumber = 2 then some "2".toList
      else if rootNumber = 3 then some "3".toList
      else if rootNumber = 4 then some "4".toList
      else none }

/-- The parser on the fragments of `exampleDB`. -/
def exampleParse (src : GoString) : Option Node :=
  if src = "1".toList then some firstCourseDocument
  else if src = "2".toList then some secondCourseDocument
  else if src = "3".toList then some invalidBeginDocument
  else if src = "4".toList then some plainDocument
  else none

/-! ## The layout `2/1/2006 15:04`: what `Parse` accepts -/

theorem isDigit_zero_cons (c : Char) (r : GoString) : isDigit (c :: r) 0 = isDigitByte c := by
  simp [isDigit]

theorem isDigit_one_cons (c : Char) (r : GoString) : isDigit (c :: r) 1 = isDigit r 0 := by
  simp [isDigit]

theorem isDigit_nil (i : Nat) : isDigit [] i = false := by
  simp [isDigit]

theorem getnum_inv (s : GoString) (fixed : Bool) (n : Nat) (rest : GoString)
    (h : getnum s fixed = some (n, rest)) :
    (fixed = false ∧ ∃ c, s = c :: rest ∧ isDigitByte c = true ∧ isDigit rest 0 = false ∧
        n = digitVal c) ∨
    (∃ c0 c1, s = c0 :: c1 :: rest ∧ isDigitByte c0 = true ∧ isDigitByte c1 = true ∧
        n = digitVal c0 * 10 + digitVal c1) := by
  unfold getnum at h
  match s, h with
  | [], h => simp [isDigit_nil] at h
  | [c], h =>
    simp [isDigit_zero_cons, isDigit_one_cons, isDigit_nil] at h
    left
    obtain ⟨h1, h2, h3, h4⟩ := h
    subst h3 h4
    exact ⟨h2, c, rfl, h1, by simp [isDigit_nil], rfl⟩
  | c0 :: c1 :: r, h =>
    simp only [isDigit_zero_cons, isDigit_one_cons] at h
    by_cases h0 : isDigitByte c0 = true
    · by_cases h1 : isDigitByte c1 = true
      · simp [h0, h1] at h
        right
        obtain ⟨h3, h4⟩ := h
        subst h3 h4
        exact ⟨c0, c1, rfl, h0, h1, rfl⟩
      · simp [h0, h1] at h
        left
        obtain ⟨h2, h3, h4⟩ := h
        subst h3 h4
        exact ⟨h2, c0, rfl, h0, by simpa [isDigit_zero_cons] using h1, rfl⟩
    · simp [h0] at h

theorem getnum_one (c : Char) (rest : GoString) (hc : isDigitByte c = true)
    (hr : isDigit rest 0 = false) : getnum (c :: rest) false = some (digitVal c, rest) := by
  simp [getnum, isDigit_zero_cons, isDigit_one_cons, hc, hr]

theorem getnum_two (c0 c1 : Char) (rest : GoString) (fixed : Bool) (h0 : isDigitByte c0 = true)
    (h1 : isDigitByte c1 = true) :
    getnum (c0 :: c1 :: rest) fixed = some (digitVal c0 * 10 + digitVal c1, rest) := by
  simp [getnum, isDigit_zero_cons, isDigit_one_cons, h0, h1]

theorem skip_char (p : Char) (hp : p ≠ ' ') (value rest : GoString) :
    skip value [p] = some rest ↔ value = p :: rest := by
  cases value with
  | nil => simp [skip, skipLoop, hp]
  | cons v vs =>
    by_cases hv : v = p
    · subst hv
      simp [skip, skipLoop, hp]
    · simp [skip, skipLoop, hp, hv]

theorem cutspace_replicate (k : Nat) (r : GoString) :
    cutspace (List.replicate k ' ' ++ r) = cutspace r := by
  induction k with
  | zero => simp
  | succ k ih => simp [List.replicate_succ, cutspace, ih]

theorem cutspace_spec (s : GoString) :
    ∃ k, s = List.replicate k ' ' ++ cutspace s ∧ (cutspace s).head? ≠ some ' ' := by
  induction s with
  | nil => exact ⟨0, by simp [cutspace]⟩
  | cons c r ih =>
    by_cases hc : c = ' '
    · obtain ⟨k, hk, hh⟩ := ih
      refine ⟨k + 1, ?_, ?_⟩
      · subst hc
        simp only [cutspace, if_true, List.replicate_succ, List.cons_append]
        rw [← hk]
      · subst hc
        simpa [cutspace] using hh
    · exact ⟨0, by simp [cutspace, hc], by simp [cutspace, hc]⟩

theorem cutspace_of_head (s : GoString) (h : s.head? ≠ some ' ') : cutspace s = s := by
  cases s with
  | nil => rfl
  | cons c r =>
    have : c ≠ ' ' := by simpa using h
    simp [cutspace, this]

theorem skip_blank (value rest : GoString) (hr : rest ≠ []) :
    skip value [' '] = some rest ↔
      ∃ k, value = List.replicate (k + 1) ' ' ++ rest ∧ rest.head? ≠ some ' ' := by
  cases value with
  | nil =>
    simp [skip, skipLoop, cutspace]
    exact hr
  | cons v vs =>
    by_cases hv : v = ' '
    · subst hv
      simp only [skip, skipLoop, List.length_singleton, cutspace, if_true, ne_eq, not_true,
        if_false, List.length_nil, gt_iff_lt, lt_self_iff_false]
      constructor
      · intro h
        have h' : cutspace vs = rest := by simpa using h
        obtain ⟨k, hk, hh⟩ := cutspace_spec vs
        refine ⟨k, ?_, ?_⟩
        · rw [List.replicate_succ, List.cons_append, ← h', ← hk]
        · rw [← h']; exact hh
      · intro ⟨k, hk, hh⟩
        simp only [List.replicate_succ, List.cons_append, List.cons.injEq, true_and] at hk
        subst hk
        rw [cutspace_replicate, cutspace_of_head _ hh]
    · simp [skip, skipLoop, hv]
      intro k hk
      simp [List.replicate_succ] at hk
      exact absurd hk.1 hv

theorem cutspace_length_le (s : GoString) : (cutspace s).length ≤ s.length := by
  induction s with
  | nil => simp [cutspace]
  | cons c r ih =>
    unfold cutspace
    split
    · exact Nat.le_succ_of_le ih
    · exact Nat.le_refl _

/-- The loop of `skip` never runs out of turns: any bound from the length of
the layout text on gives the same answer. -/
theorem skipLoop_fuel (f1 f2 : Nat) (pfx value : GoString) (h1 : pfx.length ≤ f1)
    (h2 : pfx.length ≤ f2) : skipLoop f1 pfx value = skipLoop f2 pfx value := by
  induction f1 generalizing f2 pfx value with
  | zero =>
    have hp : pfx = [] := List.length_eq_zero.1 (Nat.le_zero.1 h1)
    subst hp
    cases f2 <;> simp [skipLoop]
  | succ n ih =>
    cases pfx with
    | nil => cases f2 <;> simp [skipLoop]
    | cons p rest =>
      cases f2 with
      | zero => simp at h2
      | succ k =>
        have hr1 : rest.length ≤ n := by simpa using h1
        have hr2 : rest.length ≤ k := by simpa using h2
        have hc : (cutspace (p :: rest)).length ≤ rest.length ∨ p ≠ ' ' := by
          by_cases hp : p = ' '
          · left
            subst hp
            simpa [cutspace] using cutspace_length_le rest
          · exact Or.inr hp
        simp only [skipLoop]
        by_cases hp : p = ' '
        · have hl : (cutspace (p :: rest)).length ≤ rest.length := by
            rcases hc with h | h
            · exact h
            · exact absurd hp h
          simp only [hp, if_true]
          rw [hp] at hl
          cases value with
          | nil => exact ih k _ _ (by omega) (by omega)
          | cons v vs =>
            show (if v ≠ ' ' then none else skipLoop n _ _) =
              (if v ≠ ' ' then none else skipLoop k _ _)
            by_cases hv : v ≠ ' '
            · rw [if_pos hv, if_pos hv]
            · rw [if_neg hv, if_neg hv]
              exact ih k _ _ (by omega) (by omega)
        · simp only [hp, if_false]
          cases value with
          | nil => rfl
          | cons v vs =>
            show (if v ≠ p then none else skipLoop n _ _) =
              (if v ≠ p then none else skipLoop k _ _)
            by_cases hv : v ≠ p
            · rw [if_pos hv, if_pos hv]
            · rw [if_neg hv, if_neg hv]
              exact ih k _ _ hr1 hr2

theorem isDigitByte_iff (c : Char) : isDigitByte c = true ↔ 48 ≤ c.toNat ∧ c.toNat ≤ 57 := by
  simp [isDigitByte]

theorem digitVal_lt (c : Char) (hc : isDigitByte c = true) : digitVal c < 10 := by
  rw [isDigitByte_iff] at hc
  unfold digitVal
  omega

theorem leadingInt_digit (c : Char) (rest : GoString) (x : Nat) (hc : isDigitByte c = true)
    (hx : x ≤ 999) : leadingInt (c :: rest) x = leadingInt rest (x * 10 + digitVal c) := by
  have hd := digitVal_lt c hc
  rw [isDigitByte_iff] at hc
  unfold digitVal at hd ⊢
  rw [leadingInt]
  have h1 : ¬ (c.toNat < 48 ∨ c.toNat > 57) := by omega
  have h2 : ¬ (x > 2 ^ 63 / 10) := by norm_num; omega
  have h3 : ¬ (x * 10 + (c.toNat - 48) > 2 ^ 63) := by norm_num; omega
  simp only [h1, h2, h3, if_false]

theorem leadingInt_nondigit (c : Char) (rest : GoString) (x : Nat)
    (hc : isDigitByte c = false) : leadingInt (c :: rest) x = some (x, c :: rest) := by
  have h1 : c.toNat < 48 ∨ c.toNat > 57 := by
    by_contra hn
    have : isDigitByte c = true := by rw [isDigitByte_iff]; omega
    simp [this] at hc
  rw [leadingInt]
  simp only [h1, if_true]

theorem not_sign_of_digit (c : Char) (hc : isDigitByte c = true) : ¬ (c = '-' ∨ c = '+') := by
  rintro (h | h) <;> subst h <;> simp [isDigitByte] at hc

theorem atoi_four (a b c e : Char) (ha : isDigitByte a = true) (year : Int) :
    atoi [a, b, c, e] = some year ↔
      (isDigitByte b = true ∧ isDigitByte c = true ∧ isDigitByte e = true ∧
        year = (decimal [a, b, c, e] : Nat)) := by
  have hs := not_sign_of_digit a ha
  have hda := digitVal_lt a ha
  unfold atoi
  simp only [hs, if_false]
  rw [leadingInt_digit a _ 0 ha (by omega)]
  by_cases hb : isDigitByte b = true
  · have hdb := digitVal_lt b hb
    rw [leadingInt_digit b _ _ hb (by omega)]
    by_cases hc : isDigitByte c = true
    · have hdc := digitVal_lt c hc
      rw [leadingInt_digit c _ _ hc (by omega)]
      by_cases he : isDigitByte e = true
      · have hde := digitVal_lt e he
        rw [leadingInt_digit e _ _ he (by omega)]
        simp only [leadingInt, List.length_nil, gt_iff_lt, lt_self_iff_false, if_false,
          Option.some.injEq, hb, hc, he, true_and, decimal, List.foldl_cons, List.foldl_nil]
        simp only [Bool.false_eq_true, if_false]
        constructor
        · intro h; rw [← h]; push_cast; ring
        · intro h; rw [h]; push_cast; ring
      · rw [leadingInt_nondigit e _ _ (by simpa using he)]
        simp [he]
    · rw [leadingInt_nondigit c _ _ (by simpa using hc)]
      simp [hc]
  · rw [leadingInt_nondigit b _ _ (by simpa using hb)]
    simp [hb]

theorem year_inv (value : GoString) (year : Int) (h4 : ¬ (value.length < 4 ∨ isDigit value 0 = false))
    (h : atoi (value.take 4) = some year) :
    ∃ y, NDigits 4 y ∧ value = y ++ value.drop 4 ∧ year = (decimal y : Nat) := by
  match value, h4, h with
  | a :: b :: c :: e :: rest, h4, h =>
    have ha : isDigitByte a = true := by
      simpa [isDigit_zero_cons] using h4
    simp only [List.take_succ_cons, List.take_zero] at h
    rw [atoi_four a b c e ha] at h
    obtain ⟨hb, hc, he, hy⟩ := h
    refine ⟨[a, b, c, e], ⟨rfl, ?_⟩, by simp, hy⟩
    intro x hx
    simp at hx
    rcases hx with rfl | rfl | rfl | rfl <;> assumption
  | [], h4, _ => simp at h4
  | [_], h4, _ => simp at h4
  | [_, _], h4, _ => simp at h4
  | [_, _, _], h4, _ => simp at h4

theorem getnum_token (s : GoString) (fixed : Bool) (n : Nat) (rest : GoString)
    (h : getnum s fixed = some (n, rest)) :
    ∃ d, s = d ++ rest ∧ OneOrTwoDigits d ∧ n = decimal d ∧ (fixed = true → d.length = 2) := by
  rcases getnum_inv s fixed n rest h with ⟨hf, c, hs, hc, _, hn⟩ | ⟨c0, c1, hs, h0, h1, hn⟩
  · refine ⟨[c], by simpa using hs, ⟨Or.inl rfl, by simpa using hc⟩, by simpa [decimal] using hn, ?_⟩
    intro hf'; simp [hf] at hf'
  · refine ⟨[c0, c1], by simpa using hs, ⟨Or.inr rfl, by simp [h0, h1]⟩, ?_, fun _ => rfl⟩
    simp only [decimal, List.foldl_cons, List.foldl_nil]
    omega

theorem getnum_of_token (d rest : GoString) (fixed : Bool) (hd : OneOrTwoDigits d)
    (h1 : d.length = 1 → isDigit rest 0 = false ∧ fixed = false) :
    getnum (d ++ rest) fixed = some (decimal d, rest) := by
  obtain ⟨hl, hdig⟩ := hd
  match d, hl, hdig, h1 with
  | [c], _, hdig, h1 =>
    obtain ⟨hr, hf⟩ := h1 rfl
    subst hf
    have hc : isDigitByte c = true := hdig c (by simp)
    simpa [decimal] using getnum_one c rest hc hr
  | [c0, c1], _, hdig, _ =>
    have h0 : isDigitByte c0 = true := hdig c0 (by simp)
    have h1 : isDigitByte c1 = true := hdig c1 (by simp)
    have := getnum_two c0 c1 rest fixed h0 h1
    simp only [decimal, List.foldl_cons, List.foldl_nil, List.cons_append, List.nil_append]
    rw [this]
    congr 2
    omega
  | [], hl, _, _ => simp at hl
  | _ :: _ :: _ :: _, hl, _, _ => simp at hl

/-- Whatever `Parse` reads is an accepted text, with the time it denotes. -/
theorem Parse_sound (s : GoString) (t : Time) (h : Parse s = some t) : Accepted s t := by
  unfold Parse at h
  split at h
  · cases h
  rename_i day v1 h1
  split at h
  · cases h
  rename_i v2 h2
  split at h
  · cases h
  rename_i month v3 h3
  split at h
  · cases h
  rename_i hm
  split at h
  · cases h
  rename_i v4 h4
  split at h
  · cases h
  rename_i hy4
  split at h
  · cases h
  rename_i year hy
  split at h
  · cases h
  rename_i v5 h5
  split at h
  · cases h
  rename_i hour v6 h6
  split at h
  · cases h
  rename_i hh
  split at h
  · cases h
  rename_i v7 h7
  split at h
  · cases h
  rename_i mn v8 h8
  split at h
  · cases h
  rename_i hmn
  split at h
  · cases h
  rename_i hend
  split at h
  · cases h
  rename_i hday
  obtain ⟨d, hs1, hd, hdv, _⟩ := getnum_token _ _ _ _ h1
  rw [skip_char '/' (by decide)] at h2
  obtain ⟨m, hs3, hmd, hmv, _⟩ := getnum_token _ _ _ _ h3
  rw [skip_char '/' (by decide)] at h4
  obtain ⟨y, hyd, hs4, hyv⟩ := year_inv v4 year hy4 hy
  have hv5 : v5 ≠ [] := by
    rintro rfl
    simp [getnum, isDigit_nil] at h6
  rw [skip_blank _ _ hv5] at h5
  obtain ⟨k, hs5, _⟩ := h5
  obtain ⟨hr, hs6, hhd, hhv, _⟩ := getnum_token _ _ _ _ h6
  rw [skip_char ':' (by decide)] at h7
  obtain ⟨mi, hs8, hmid, hmiv, hmil⟩ := getnum_token _ _ _ _ h8
  have hv8 : v8 = [] := by
    cases v8 with
    | nil => rfl
    | cons _ _ => simp at hend
  subst hv8
  refine ⟨d, m, y, hr, mi, k, ?_, hd, hmd, hyd, hhd, ⟨hmil rfl, hmid.2⟩, ?_, ?_, ?_, ?_, ?_, ?_, ?_⟩
  · rw [hs1, h2, hs3, h4, hs4, hs5, hs6, h7, hs8]
    simp
  · omega
  · omega
  · omega
  · rw [← hdv, ← hmv, ← hyv]; omega
  · omega
  · omega
  · rw [← hdv, ← hmv, ← hyv, ← hhv, ← hmiv]
    exact (Option.some.inj h).symm

/-- Every accepted text is read by `Parse` as the time it denotes. -/
theorem Parse_complete (s : GoString) (t : Time) (h : Accepted s t) : Parse s = some t := by
  obtain ⟨d, m, y, hr, mi, k, hs, hd, hm, hy, hh, hmi, hm1, hm12, hd1, hdmax, hh24, hmi60, ht⟩ := h
  have hslash : isDigit ('/' :: (m ++ '/' :: (y ++ (List.replicate (k + 1) ' ' ++ (hr ++ ':' :: mi))))) 0 = false := by
    simp [isDigit_zero_cons, isDigitByte]
  have hslash2 : isDigit ('/' :: (y ++ (List.replicate (k + 1) ' ' ++ (hr ++ ':' :: mi)))) 0 = false := by
    simp [isDigit_zero_cons, isDigitByte]
  have hcolon : isDigit (':' :: mi) 0 = false := by
    simp [isDigit_zero_cons, isDigitByte]
  have g1 := getnum_of_token d _ false hd (fun _ => ⟨hslash, rfl⟩)
  have g2 := getnum_of_token m _ false hm (fun _ => ⟨hslash2, rfl⟩)
  have g3 := getnum_of_token hr _ false hh (fun _ => ⟨hcolon, rfl⟩)
  have g4 := getnum_of_token mi [] true ⟨Or.inr hmi.1, hmi.2⟩ (fun h1 => by rw [hmi.1] at h1; cases h1)
  have s1 := (skip_char '/' (by decide) ('/' :: (m ++ '/' :: (y ++ (List.replicate (k + 1) ' ' ++ (hr ++ ':' :: mi))))) _).2 rfl
  have s2 := (skip_char '/' (by decide) ('/' :: (y ++ (List.replicate (k + 1) ' ' ++ (hr ++ ':' :: mi)))) _).2 rfl
  have s4 := (skip_char ':' (by decide) (':' :: mi) _).2 rfl
  obtain ⟨hyl, hydig⟩ := hy
  match y, hyl, hydig with
  | [a, b, c, e], _, hydig =>
    have ha : isDigitByte a = true := hydig a (by simp)
    have hb : isDigitByte b = true := hydig b (by simp)
    have hc : isDigitByte c = true := hydig c (by simp)
    have he : isDigitByte e = true := hydig e (by simp)
    have hat := (atoi_four a b c e ha (decimal [a, b, c, e] : Nat)).2 ⟨hb, hc, he, rfl⟩
    have hhr0 : hr ≠ [] := by
      rintro rfl
      rcases hh.1 with h | h <;> simp at h
    have hhead : (hr ++ ':' :: mi).head? ≠ some ' ' := by
      cases hr with
      | nil => exact absurd rfl hhr0
      | cons x xs =>
        have hx : isDigitByte x = true := hh.2 x (by simp)
        simp only [List.cons_append, List.head?_cons, ne_eq, Option.some.injEq]
        rintro rfl
        simp [isDigitByte] at hx
    have s3 := (skip_blank (List.replicate (k + 1) ' ' ++ (hr ++ ':' :: mi)) (hr ++ ':' :: mi)
      (by simp)).2 ⟨k, rfl, hhead⟩
    subst hs
    unfold Parse
    simp only [g1, s1, g2]
    have hm' : ¬ (decimal m ≤ 0 ∨ 12 < decimal m) := by omega
    simp only [hm', if_false, s2]
    have hlen : ¬ ((([a, b, c, e] : GoString) ++ (List.replicate (k + 1) ' ' ++ (hr ++ ':' :: mi))).length < 4 ∨
        isDigit ([a, b, c, e] ++ (List.replicate (k + 1) ' ' ++ (hr ++ ':' :: mi))) 0 = false) := by
      simp [isDigit_zero_cons, ha]
    simp only [hlen, if_false]
    have htake : List.take 4 (([a, b, c, e] : GoString) ++ (List.replicate (k + 1) ' ' ++ (hr ++ ':' :: mi))) = [a, b, c, e] := by
      simp
    have hdrop : List.drop 4 (([a, b, c, e] : GoString) ++ (List.replicate (k + 1) ' ' ++ (hr ++ ':' :: mi))) = List.replicate (k + 1) ' ' ++ (hr ++ ':' :: mi) := by
      simp
    simp only [htake, hat, hdrop, s3, g3]
    have hh' : ¬ (24 ≤ decimal hr) := by omega
    simp only [hh', if_false, s4]
    have g4' : getnum mi true = some (decimal mi, []) := by simpa using g4
    simp only [g4']
    have hmi' : ¬ (60 ≤ decimal mi) := by omega
    have hday' : ¬ (decimal d < 1 ∨ decimal d > daysIn (decimal m) (decimal [a, b, c, e] : Nat)) := by omega
    simp only [hmi', if_false, List.length_nil, ne_eq, not_true_eq_false, hday', ht]
  | [], hl, _ => simp at hl
  | [_], hl, _ => simp at hl
  | [_, _], hl, _ => simp at hl
  | [_, _, _], hl, _ => simp at hl
  | _ :: _ :: _ :: _ :: _ :: _, hl, _ => simp at hl

/-- The layout accepts exactly the texts of `Accepted`. -/
theorem Parse_eq_some_iff (s : GoString) (t : Time) : Parse s = some t ↔ Accepted s t :=
  ⟨Parse_sound s t, Parse_complete s t⟩

/-! ## Dates and times as the specification writes them -/

theorem digitChar_spec (k : Nat) (hk : k < 10) :
    isDigitByte (digitChar k) = true ∧ digitVal (digitChar k) = k := by
  interval_cases k <;> exact ⟨by decide, by decide⟩

theorem twoDigits_spec (n : Nat) (hn : n < 100) :
    NDigits 2 (twoDigits n) ∧ decimal (twoDigits n) = n := by
  have h1 := digitChar_spec (n / 10) (by omega)
  have h2 := digitChar_spec (n % 10) (Nat.mod_lt _ (by omega))
  refine ⟨⟨rfl, ?_⟩, ?_⟩
  · intro c hc
    simp only [twoDigits, List.mem_cons, List.mem_singleton, List.not_mem_nil, or_false] at hc
    rcases hc with rfl | rfl
    · exact h1.1
    · exact h2.1
  · simp only [twoDigits, decimal, List.foldl_cons, List.foldl_nil, h1.2, h2.2]
    omega

theorem unpadded_spec (n : Nat) (hn : n < 100) :
    OneOrTwoDigits (unpadded n) ∧ decimal (unpadded n) = n := by
  unfold unpadded
  split
  · rename_i h
    have h1 := digitChar_spec n h
    refine ⟨⟨Or.inl rfl, ?_⟩, ?_⟩
    · intro c hc
      simp only [List.mem_singleton] at hc
      subst hc
      exact h1.1
    · simp [decimal, h1.2]
  · have h2 := twoDigits_spec n hn
    exact ⟨⟨Or.inr h2.1.1, h2.1.2⟩, h2.2⟩

theorem fourDigits_spec (n : Nat) (hn : n < 10000) :
    NDigits 4 (fourDigits n) ∧ decimal (fourDigits n) = n := by
  have h1 := digitChar_spec (n / 1000) (by omega)
  have h2 := digitChar_spec (n / 100 % 10) (Nat.mod_lt _ (by omega))
  have h3 := digitChar_spec (n / 10 % 10) (Nat.mod_lt _ (by omega))
  have h4 := digitChar_spec (n % 10) (Nat.mod_lt _ (by omega))
  refine ⟨⟨rfl, ?_⟩, ?_⟩
  · intro c hc
    simp only [fourDigits, List.mem_cons, List.mem_singleton, List.not_mem_nil, or_false] at hc
    rcases hc with rfl | rfl | rfl | rfl
    · exact h1.1
    · exact h2.1
    · exact h3.1
    · exact h4.1
  · simp only [fourDigits, decimal, List.foldl_cons, List.foldl_nil, h1.2, h2.2, h3.2, h4.2]
    omega

theorem daysIn_le (m : Nat) (y : Int) : daysIn m y ≤ 31 := by
  unfold daysIn
  split
  · omega
  · by_cases hm : m ≤ 13
    · interval_cases m <;> simp [daysBefore]
    · have h1 : daysBefore.getD m 0 = 0 := by
        apply List.getD_eq_default
        simp [daysBefore]; omega
      omega

/-- A valid date and time written `D/M/YYYY HH:MM` is a text the layout accepts,
and it denotes that date at that time. -/
theorem render_accepted (d m y h mi : Nat) (hd : ValidDate d m y) (ht : ValidTime h mi) :
    Accepted (renderDate d m y ++ ' ' :: renderTime h mi) (Date (y : Int) m d h mi) := by
  obtain ⟨hm1, hm12, hd1, hdmax, hy⟩ := hd
  obtain ⟨hh, hmi⟩ := ht
  have hd31 := daysIn_le m (y : Int)
  have ud := unpadded_spec d (by omega)
  have um := unpadded_spec m (by omega)
  have fy := fourDigits_spec y (by omega)
  have th := twoDigits_spec h (by omega)
  have tmi := twoDigits_spec mi (by omega)
  refine ⟨unpadded d, unpadded m, fourDigits y, twoDigits h, twoDigits mi, 0, ?_, ud.1, um.1,
    fy.1, ⟨Or.inr th.1.1, th.1.2⟩, tmi.1, ?_, ?_, ?_, ?_, ?_, ?_, ?_⟩
  · simp [renderDate, renderTime]
  · rw [um.2]; exact hm1
  · rw [um.2]; exact hm12
  · rw [ud.2]; exact hd1
  · rw [ud.2, um.2, fy.2]; exact hdmax
  · rw [th.2]; exact hh
  · rw [tmi.2]; exact hmi
  · rw [ud.2, um.2, fy.2, th.2, tmi.2]


/-! ## The body of the row loop -/

/-- The record a row yields, from the texts of its cells. -/
theorem rowBody_eq (c : Course) (result : List CourseDate) (tr : Ref) :
    rowBody c result tr =
      if (rowCells tr).length = 0 then .ok result
      else
        match cellText tr ColDate with
        | none => .error Fatal.indexOutOfRange
        | some a =>
        match cellText tr ColBeg with
        | none => .error Fatal.indexOutOfRange
        | some b =>
        match Parse (a ++ " ".toList ++ b) with
        | none => .error Fatal.dateTimeParse
        | some beginning =>
        match cellText tr ColEnd with
        | none => .error Fatal.indexOutOfRange
        | some e =>
        match Parse (a ++ " ".toList ++ e) with
        | none => .error Fatal.dateTimeParse
        | some end_ =>
        match cellText tr ColAssesment with
        | none => .error Fatal.indexOutOfRange
        | some f =>
          .ok (result ++ [{ id := 0, courseId := c.id, assessment := decide (f ≠ "No".toList),
                            from_ := beginning, to_ := end_ }]) := by
  unfold rowBody cellText index
  by_cases h0 : (rowCells tr).length = 0
  · simp [h0]
  · simp only [h0, if_false]
    cases (rowCells tr).get? ColDate with
    | none => rfl
    | some tdDate =>
      cases (rowCells tr).get? ColBeg with
      | none => rfl
      | some tdBeg =>
        simp only [Option.map_some']
        cases Parse (Text (FindNodes [tdDate]) ++ " ".toList ++ Text (FindNodes [tdBeg])) with
        | none => rfl
        | some beginning =>
          cases (rowCells tr).get? ColEnd with
          | none => rfl
          | some tdEnd =>
            simp only [Option.map_some']
            cases Parse (Text (FindNodes [tdDate]) ++ " ".toList ++ Text (FindNodes [tdEnd])) with
            | none => rfl
            | some end_ =>
              cases (rowCells tr).get? ColAssesment with
              | none => rfl
              | some tdA => rfl

theorem cellText_eq_none (tr : Ref) (i : Nat) :
    cellText tr i = none ↔ (rowCells tr).length ≤ i := by
  simp [cellText, List.getElem?_eq_none_iff]

theorem cellText_isSome (tr : Ref) (i : Nat) (h : i < (rowCells tr).length) :
    ∃ a, cellText tr i = some a := by
  cases hc : cellText tr i with
  | none => rw [cellText_eq_none] at hc; omega
  | some a => exact ⟨a, rfl⟩

/-- The slice built so far only receives the records of the row at its end. -/
theorem rowBody_acc (c : Course) (result : List CourseDate) (tr : Ref) :
    rowBody c result tr = Except.map (fun rs => result ++ rs) (rowBody c [] tr) := by
  rw [rowBody_eq, rowBody_eq c []]
  split
  · simp [Except.map]
  · cases cellText tr ColDate with
    | none => rfl
    | some a =>
      cases cellText tr ColBeg with
      | none => rfl
      | some b =>
        simp only []
        cases Parse (a ++ " ".toList ++ b) with
        | none => rfl
        | some beginning =>
          cases cellText tr ColEnd with
          | none => rfl
          | some e =>
            simp only []
            cases Parse (a ++ " ".toList ++ e) with
            | none => rfl
            | some end_ =>
              cases cellText tr ColAssesment with
              | none => rfl
              | some f => simp [Except.map]


/-- A row without data cells is skipped. -/
theorem rowBody_no_cells (c : Course) (result : List CourseDate) (tr : Ref)
    (h : (rowCells tr).length = 0) : rowBody c result tr = .ok result := by
  rw [rowBody_eq]
  simp [h]

/-- C4: a row whose cell 2 is a valid date written `D/M/YYYY`, whose cells 3
and 4 are valid times written `HH:MM`, and which has a cell 5, yields one
record: it starts on that date at the time of cell 3 and ends on the same
date at the time of cell 4, the day being read before the month. -/
theorem rowBody_valid_row (c : Course) (result : List CourseDate) (tr : Ref)
    (d m y h1 mi1 h2 mi2 : Nat) (f : GoString)
    (hdate : cellText tr 2 = some (renderDate d m y)) (hvd : ValidDate d m y)
    (hbeg : cellText tr 3 = some (renderTime h1 mi1)) (hvb : ValidTime h1 mi1)
    (hend : cellText tr 4 = some (renderTime h2 mi2)) (hve : ValidTime h2 mi2)
    (hass : cellText tr 5 = some f) :
    rowBody c result tr =
      .ok (result ++ [{ id := 0, courseId := c.id,
                        from_ := Date (y : Int) m d h1 mi1, to_ := Date (y : Int) m d h2 mi2,
                        assessment := decide (f ≠ "No".toList) }]) := by
  have hn : (rowCells tr).length ≠ 0 := by
    intro h0
    have := (cellText_eq_none tr 5).2 (by omega)
    rw [this] at hass
    cases hass
  have p1 := Parse_complete _ _ (render_accepted d m y h1 mi1 hvd hvb)
  have p2 := Parse_complete _ _ (render_accepted d m y h2 mi2 hvd hve)
  have e1 : renderDate d m y ++ " ".toList ++ renderTime h1 mi1 =
      renderDate d m y ++ ' ' :: renderTime h1 mi1 := by simp
  have e2 : renderDate d m y ++ " ".toList ++ renderTime h2 mi2 =
      renderDate d m y ++ ' ' :: renderTime h2 mi2 := by simp
  rw [rowBody_eq]
  simp only [hn, if_false]
  rw [show cellText tr ColDate = some (renderDate d m y) from hdate,
    show cellText tr ColBeg = some (renderTime h1 mi1) from hbeg,
    show cellText tr ColEnd = some (renderTime h2 mi2) from hend,
    show cellText tr ColAssesment = some f from hass]
  simp only [e1, e2, p1, p2]

/-- C4 at the row of the specification: date `5/3/2024`, begin `09:00`, end
`11:30` give the 5th of March 2024, from 09:00 to 11:30. -/
theorem rowBody_valid_row_witness :
    rowBody ⟨7, 1, 2, []⟩ [] exampleRow =
      .ok [{ id := 0, courseId := 7, from_ := Date 2024 3 5 9 0, to_ := Date 2024 3 5 11 30,
             assessment := false }] :=
  rowBody_valid_row ⟨7, 1, 2, []⟩ [] exampleRow 5 3 2024 9 0 11 30 "No".toList
    (by rfl) (by simp [ValidDate, daysIn, daysBefore]) (by rfl) (by simp [ValidTime]) (by rfl) (by simp [ValidTime]) (by rfl)

/-- C5: the record of a row that was parsed has its assessment flag false
exactly when the text of cell 5 is the string `No`, and true for every other
text. -/
theorem assessment_flag (c : Course) (result out : List CourseDate) (tr : Ref) (f : GoString)
    (hf : cellText tr 5 = some f) (h : rowBody c result tr = .ok out) :
    ∃ cd, out = result ++ [cd] ∧ (cd.assessment = false ↔ f = "No".toList) ∧
      (cd.assessment = true ↔ f ≠ "No".toList) := by
  have hn : (rowCells tr).length ≠ 0 := by
    intro h0
    have := (cellText_eq_none tr 5).2 (by omega)
    rw [this] at hf
    cases hf
  rw [rowBody_eq] at h
  simp only [hn, if_false] at h
  rw [show cellText tr ColAssesment = some f from hf] at h
  split at h
  · cases h
  split at h
  · cases h
  split at h
  · cases h
  split at h
  · cases h
  split at h
  · cases h
  simp only [Except.ok.injEq] at h
  refine ⟨_, h.symm, ?_, ?_⟩ <;> simp

/-- C5 at a row whose cell 5 reads `Yes`: the flag is true. -/
theorem assessment_flag_witness :
    ∃ cd : CourseDate,
      [{ id := 0, courseId := 7, from_ := Date 2024 3 5 9 0, to_ := Date 2024 3 5 11 30,
         assessment := true }] = ([] : List CourseDate) ++ [cd] ∧
      (cd.assessment = false ↔ "Yes".toList = "No".toList) ∧
      (cd.assessment = true ↔ "Yes".toList ≠ "No".toList) :=
  assessment_flag ⟨7, 1, 2, []⟩ [] _
    ⟨[0], dataRow ["1", "Tue", "5/3/2024", "09:00", "11:30", "Yes"]⟩ "Yes".toList
    (by rfl) (by rfl)

/-- C7: the rows without data cells add no record and end nothing: the loop
over the rows gives the same outcome, records or failure, as the loop over the
rows that are left when every row without data cells is removed. -/
theorem rowLoop_skips_empty_rows (c : Course) (trs : List Ref) (result : List CourseDate) :
    rowLoop c trs result =
      rowLoop c (trs.filter (fun tr => decide ((rowCells tr).length ≠ 0))) result := by
  induction trs generalizing result with
  | nil => rfl
  | cons tr trs ih =>
    by_cases h : (rowCells tr).length = 0
    · have hf : List.filter (fun tr => decide ((rowCells tr).length ≠ 0)) (tr :: trs) =
          List.filter (fun tr => decide ((rowCells tr).length ≠ 0)) trs := by
        simp [List.filter_cons, h]
      rw [hf, rowLoop, rowBody_no_cells c result tr h]
      exact ih result
    · have hf : List.filter (fun tr => decide ((rowCells tr).length ≠ 0)) (tr :: trs) =
          tr :: List.filter (fun tr => decide ((rowCells tr).length ≠ 0)) trs := by
        simp [List.filter_cons, h]
      rw [hf, rowLoop, rowLoop]
      cases rowBody c result tr with
      | error e => rfl
      | ok r => exact ih r

/-- C9, as amended: an index is out of range only in a row of 1 to 5 data
cells.  Such a row is never skipped and never yields a record.  With 1 to 3
cells it always panics.  With 4 cells it panics when the begin text parses and
reports a date-time parse error when it does not; with 5 cells it panics when
both texts parse and reports a parse error otherwise. -/
theorem rowBody_short_row (c : Course) (result : List CourseDate) (tr : Ref) :
    (rowBody c result tr = .error Fatal.indexOutOfRange →
      1 ≤ (rowCells tr).length ∧ (rowCells tr).length ≤ 5) ∧
    (1 ≤ (rowCells tr).length → (rowCells tr).length ≤ 3 →
      rowBody c result tr = .error Fatal.indexOutOfRange) ∧
    ((rowCells tr).length = 4 → ∀ a b, cellText tr 2 = some a → cellText tr 3 = some b →
      rowBody c result tr =
        if (Parse (a ++ " ".toList ++ b)).isSome then .error Fatal.indexOutOfRange
        else .error Fatal.dateTimeParse) ∧
    ((rowCells tr).length = 5 → ∀ a b e, cellText tr 2 = some a → cellText tr 3 = some b →
      cellText tr 4 = some e →
      rowBody c result tr =
        if (Parse (a ++ " ".toList ++ b)).isSome ∧ (Parse (a ++ " ".toList ++ e)).isSome
        then .error Fatal.indexOutOfRange
        else .error Fatal.dateTimeParse) := by
  refine ⟨?_, ?_, ?_, ?_⟩
  · intro h
    rw [rowBody_eq] at h
    by_cases h0 : (rowCells tr).length = 0
    · simp [h0] at h
    · refine ⟨by omega, ?_⟩
      by_contra h6
      obtain ⟨a, ha⟩ := cellText_isSome tr ColDate (by unfold ColDate; omega)
      obtain ⟨b, hb⟩ := cellText_isSome tr ColBeg (by unfold ColBeg; omega)
      obtain ⟨e, he⟩ := cellText_isSome tr ColEnd (by unfold ColEnd; omega)
      obtain ⟨f, hf⟩ := cellText_isSome tr ColAssesment (by unfold ColAssesment; omega)
      simp only [h0, if_false, ha, hb, he, hf] at h
      split at h
      · cases h
      split at h
      · cases h
      cases h
  · intro h1 h3
    rw [rowBody_eq]
    have h0 : (rowCells tr).length ≠ 0 := by omega
    simp only [h0, if_false]
    have hb : cellText tr ColBeg = none := (cellText_eq_none tr ColBeg).2 (by unfold ColBeg; omega)
    rw [hb]
    cases cellText tr ColDate <;> rfl
  · intro h4 a b ha hb
    rw [rowBody_eq]
    have h0 : (rowCells tr).length ≠ 0 := by omega
    have he : cellText tr ColEnd = none := (cellText_eq_none tr ColEnd).2 (by unfold ColEnd; omega)
    simp only [h0, if_false, show cellText tr ColDate = some a from ha,
      show cellText tr ColBeg = some b from hb, he]
    cases Parse (a ++ " ".toList ++ b) <;> simp
  · intro h5 a b e ha hb he
    rw [rowBody_eq]
    have h0 : (rowCells tr).length ≠ 0 := by omega
    have hf : cellText tr ColAssesment = none :=
      (cellText_eq_none tr ColAssesment).2 (by unfold ColAssesment; omega)
    simp only [h0, if_false, show cellText tr ColDate = some a from ha,
      show cellText tr ColBeg = some b from hb, show cellText tr ColEnd = some e from he, hf]
    cases Parse (a ++ " ".toList ++ b) <;> cases Parse (a ++ " ".toList ++ e) <;> simp


/-! ## The date shared by the start and the end of a record -/

theorem takeWhile_append_all {α : Type} (p : α → Bool) (l r : List α) (h : ∀ c ∈ l, p c = true) :
    (l ++ r).takeWhile p = l ++ r.takeWhile p := by
  induction l with
  | nil => rfl
  | cons x xs ih =>
    have hx : p x = true := h x (by simp)
    simp only [List.cons_append, List.takeWhile_cons, hx, if_true]
    rw [ih (fun c hc => h c (by simp [hc]))]

theorem takeWhile_append_stop {α : Type} (p : α → Bool) (a b : List α) (x : α)
    (hx : p x = false) : (a ++ x :: b).takeWhile p = a.takeWhile p := by
  induction a with
  | nil => simp [List.takeWhile_cons, hx]
  | cons y ys ih =>
    simp only [List.cons_append, List.takeWhile_cons]
    split
    · rw [ih]
    · rfl

theorem append_cons_unique {α : Type} (c : α) (a a2 b b2 : List α) (h1 : c ∉ a) (h2 : c ∉ a2)
    (h : a ++ c :: b = a2 ++ c :: b2) : a = a2 ∧ b = b2 := by
  induction a generalizing a2 with
  | nil =>
    cases a2 with
    | nil => simpa using h
    | cons y ys =>
      simp only [List.nil_append, List.cons_append, List.cons.injEq] at h
      exact absurd h.1 (by intro hc; apply h2; simp [hc])
  | cons x xs ih =>
    cases a2 with
    | nil =>
      simp only [List.nil_append, List.cons_append, List.cons.injEq] at h
      exact absurd h.1.symm (by intro hc; apply h1; simp [hc])
    | cons y ys =>
      simp only [List.cons_append, List.cons.injEq] at h
      obtain ⟨r1, r2⟩ := ih ys (fun hc => h1 (by simp [hc])) (fun hc => h2 (by simp [hc])) h.2
      exact ⟨by rw [h.1, r1], r2⟩

theorem digit_ne_slash (l : GoString) (h : ∀ c ∈ l, isDigitByte c = true) : '/' ∉ l := by
  intro hc
  have := h _ hc
  simp [isDigitByte] at this

theorem digit_not_blank (l : GoString) (h : ∀ c ∈ l, isDigitByte c = true) :
    ∀ c ∈ l, decide (c ≠ ' ') = true := by
  intro c hc
  have := h c hc
  simp only [ne_eq, decide_not, Bool.not_eq_true', decide_eq_false_iff_not]
  rintro rfl
  simp [isDigitByte] at this

/-- The date part of an accepted text: what stands before its first blank. -/
theorem Accepted_date_part (s : GoString) (t : Time) (h : Accepted s t) :
    ∃ d m y : GoString, s.takeWhile (fun c => decide (c ≠ ' ')) = d ++ '/' :: (m ++ '/' :: y) ∧
      (∀ c ∈ d, isDigitByte c = true) ∧ (∀ c ∈ m, isDigitByte c = true) ∧
      (∀ c ∈ y, isDigitByte c = true) ∧
      t.year = (decimal y : Nat) ∧ t.month = decimal m ∧ t.day = decimal d := by
  obtain ⟨d, m, y, hr, mi, k, hs, hd, hm, hy, _, _, _, _, _, _, _, _, ht⟩ := h
  refine ⟨d, m, y, ?_, hd.2, hm.2, hy.2, by rw [ht]; rfl, by rw [ht]; rfl, by rw [ht]; rfl⟩
  have e : s = (d ++ '/' :: (m ++ '/' :: y)) ++ ' ' :: (List.replicate k ' ' ++ (hr ++ ':' :: mi)) := by
    rw [hs]; simp [List.replicate_succ]
  rw [e, takeWhile_append_all]
  · simp [List.takeWhile_cons]
  · intro c hc
    simp only [List.mem_append, List.mem_cons] at hc
    rcases hc with hc | rfl | hc | rfl | hc
    · exact digit_not_blank d hd.2 c hc
    · decide
    · exact digit_not_blank m hm.2 c hc
    · decide
    · exact digit_not_blank y hy.2 c hc

/-- Two accepted texts that start with the same date cell denote the same day. -/
theorem Accepted_same_date (a b e : GoString) (t u : Time)
    (ht : Accepted (a ++ ' ' :: b) t) (hu : Accepted (a ++ ' ' :: e) u) :
    t.year = u.year ∧ t.month = u.month ∧ t.day = u.day := by
  obtain ⟨d, m, y, h1, hd, hm, hy, ty, tm, td⟩ := Accepted_date_part _ _ ht
  obtain ⟨d2, m2, y2, h2, hd2, hm2, hy2, uy, um, ud⟩ := Accepted_date_part _ _ hu
  rw [takeWhile_append_stop _ a b ' ' (by decide)] at h1
  rw [takeWhile_append_stop _ a e ' ' (by decide)] at h2
  rw [h1] at h2
  obtain ⟨e1, r1⟩ := append_cons_unique '/' d d2 _ _ (digit_ne_slash d hd) (digit_ne_slash d2 hd2) h2
  obtain ⟨e2, e3⟩ := append_cons_unique '/' m m2 _ _ (digit_ne_slash m hm) (digit_ne_slash m2 hm2) r1
  subst e1 e2 e3
  exact ⟨by rw [ty, uy], by rw [tm, um], by rw [td, ud]⟩

theorem Time.le_same_date (t u : Time) (hy : t.year = u.year) (hm : t.month = u.month)
    (hd : t.day = u.day) :
    t.le u ↔ (t.hour < u.hour ∨ (t.hour = u.hour ∧ t.min ≤ u.min)) := by
  unfold Time.le Time.Before
  simp only [hy, hm, hd, lt_self_iff_false, decide_False, decide_True, Bool.true_and,
    Bool.false_or, Bool.or_eq_false_iff, decide_eq_false_iff_not, Bool.and_eq_false_imp,
    decide_eq_true_eq, not_lt]
  constructor
  · rintro ⟨h1, h2⟩
    rcases Nat.lt_or_ge t.hour u.hour with h | h
    · exact Or.inl h
    · have he : u.hour = t.hour := by omega
      exact Or.inr ⟨he.symm, h2 he⟩
  · rintro (h | ⟨h1, h2⟩)
    · exact ⟨by omega, fun he => by omega⟩
    · exact ⟨by omega, fun _ => h2⟩

/-- C8, as amended: the start and the end of every record fall on the same
calendar date, that of the date cell, and the start is not after the end
exactly when the begin time of day is not after the end time of day; the
code does not compare the two. -/
theorem record_same_date (c : Course) (result out : List CourseDate) (tr : Ref)
    (hn : (rowCells tr).length ≠ 0) (h : rowBody c result tr = .ok out) :
    ∃ cd, out = result ++ [cd] ∧
      cd.from_.year = cd.to_.year ∧ cd.from_.month = cd.to_.month ∧ cd.from_.day = cd.to_.day ∧
      (cd.from_.le cd.to_ ↔
        (cd.from_.hour < cd.to_.hour ∨ (cd.from_.hour = cd.to_.hour ∧ cd.from_.min ≤ cd.to_.min))) := by
  rw [rowBody_eq] at h
  simp only [hn, if_false] at h
  split at h
  · cases h
  rename_i a _
  split at h
  · cases h
  rename_i b _
  split at h
  · cases h
  rename_i beginning hb
  split at h
  · cases h
  rename_i e _
  split at h
  · cases h
  rename_i end_ he
  split at h
  · cases h
  simp only [Except.ok.injEq] at h
  have hb' : Accepted (a ++ ' ' :: b) beginning := Parse_sound _ _ (by simpa using hb)
  have he' : Accepted (a ++ ' ' :: e) end_ := Parse_sound _ _ (by simpa using he)
  obtain ⟨hy, hm, hd⟩ := Accepted_same_date a b e beginning end_ hb' he'
  exact ⟨_, h.symm, hy, hm, hd, Time.le_same_date _ _ hy hm hd⟩


/-! ## The loop over the rows and the loop over the courses -/

/-- The loop over the rows only appends to the slice it is given. -/
theorem rowLoop_acc (c : Course) (trs : List Ref) (result : List CourseDate) :
    rowLoop c trs result = Except.map (fun rs => result ++ rs) (rowLoop c trs []) := by
  induction trs generalizing result with
  | nil => simp [rowLoop, Except.map]
  | cons tr trs ih =>
    rw [rowLoop, rowLoop, rowBody_acc]
    cases h : rowBody c [] tr with
    | error e => rfl
    | ok rs =>
      simp only [Except.map, List.nil_append]
      rw [ih (result ++ rs), ih rs]
      cases rowLoop c trs [] with
      | error e => rfl
      | ok out => simp [Except.map]

/-- The records of a table are those of its rows, in row order. -/
theorem rowLoop_records (c : Course) (trs : List Ref) (out : List CourseDate)
    (h : rowLoop c trs [] = .ok out) : out = trs.flatMap (rowRecords c) := by
  induction trs generalizing out with
  | nil =>
    simp only [rowLoop, Except.ok.injEq] at h
    simp [← h]
  | cons tr trs ih =>
    rw [rowLoop] at h
    cases hb : rowBody c [] tr with
    | error e => rw [hb] at h; cases h
    | ok rs =>
      rw [hb] at h
      simp only at h
      rw [rowLoop_acc] at h
      cases hl : rowLoop c trs [] with
      | error e => rw [hl] at h; cases h
      | ok out2 =>
        rw [hl] at h
        simp only [Except.map, Except.ok.injEq] at h
        rw [← h, ih out2 hl]
        simp [rowRecords, hb]

/-- A row that ends the run ends the loop over the rows. -/
theorem rowLoop_error (c : Course) (trs : List Ref) (tr : Ref) (htr : tr ∈ trs)
    (h : ∀ result, ∃ f, rowBody c result tr = .error f) :
    ∀ result, ∃ f, rowLoop c trs result = .error f := by
  induction trs with
  | nil => cases htr
  | cons x xs ih =>
    intro result
    rw [rowLoop]
    rcases List.mem_cons.1 htr with rfl | hmem
    · obtain ⟨f, hf⟩ := h result
      exact ⟨f, by rw [hf]⟩
    · cases rowBody c result x with
      | error e => exact ⟨e, rfl⟩
      | ok r => exact ih hmem r

theorem courseBody_of (db : SourceDB) (parse : GoString → Option Node) (c : Course)
    (result : List CourseDate) (src : GoString) (root : Node)
    (hsrc : db.rawDetail c.rootNumber c.sn = some src) (hroot : parse src = some root) :
    courseBody db parse result c = extractDocument c root result := by
  simp only [courseBody, hsrc, hroot]

theorem courseBody_ok_inv (db : SourceDB) (parse : GoString → Option Node) (c : Course)
    (result rs : List CourseDate) (h : courseBody db parse result c = .ok rs) :
    ∃ src root, db.rawDetail c.rootNumber c.sn = some src ∧ parse src = some root ∧
      extractDocument c root result = .ok rs := by
  unfold courseBody at h
  split at h
  · cases h
  rename_i src hsrc
  split at h
  · cases h
  rename_i root hroot
  exact ⟨src, root, hsrc, hroot, h⟩

theorem courseBody_acc (db : SourceDB) (parse : GoString → Option Node) (c : Course)
    (result : List CourseDate) :
    courseBody db parse result c =
      Except.map (fun rs => result ++ rs) (courseBody db parse [] c) := by
  cases hsrc : db.rawDetail c.rootNumber c.sn with
  | none => simp [courseBody, hsrc, Except.map]
  | some src =>
    cases hroot : parse src with
    | none => simp [courseBody, hsrc, hroot, Except.map]
    | some root =>
      rw [courseBody_of db parse c result src root hsrc hroot,
        courseBody_of db parse c [] src root hsrc hroot]
      exact rowLoop_acc c _ result

theorem courseLoop_acc (db : SourceDB) (parse : GoString → Option Node) (cs : List Course)
    (result : List CourseDate) :
    courseLoop db parse cs result =
      Except.map (fun rs => result ++ rs) (courseLoop db parse cs []) := by
  induction cs generalizing result with
  | nil => simp [courseLoop, Except.map]
  | cons c cs ih =>
    rw [courseLoop, courseLoop, courseBody_acc]
    cases h : courseBody db parse [] c with
    | error e => rfl
    | ok rs =>
      simp only [Except.map, List.nil_append]
      rw [ih (result ++ rs), ih rs]
      cases courseLoop db parse cs [] with
      | error e => rfl
      | ok out => simp [Except.map]

theorem courseLoop_records (db : SourceDB) (parse : GoString → Option Node) (cs : List Course)
    (h : ∀ c ∈ cs, ∃ rs, courseBody db parse [] c = .ok rs) :
    courseLoop db parse cs [] = .ok (cs.flatMap (courseRecords db parse)) := by
  induction cs with
  | nil => rfl
  | cons c cs ih =>
    obtain ⟨rs, hrs⟩ := h c (by simp)
    rw [courseLoop, hrs]
    simp only
    rw [courseLoop_acc, ih (fun x hx => h x (by simp [hx]))]
    simp [Except.map, courseRecords, hrs]

/-- A course that ends the run ends the loop over the courses. -/
theorem courseLoop_error (db : SourceDB) (parse : GoString → Option Node) (cs : List Course)
    (c : Course) (hc : c ∈ cs) (h : ∀ result, ∃ f, courseBody db parse result c = .error f) :
    ∀ result, ∃ f, courseLoop db parse cs result = .error f := by
  induction cs with
  | nil => cases hc
  | cons x xs ih =>
    intro result
    rw [courseLoop]
    rcases List.mem_cons.1 hc with rfl | hmem
    · obtain ⟨f, hf⟩ := h result
      exact ⟨f, by rw [hf]⟩
    · cases courseBody db parse result x with
      | error e => exact ⟨e, rfl⟩
      | ok r => exact ih hmem r

theorem rowRecords_courseId (c : Course) (tr : Ref) : ∀ r ∈ rowRecords c tr, r.courseId = c.id := by
  intro r hr
  unfold rowRecords at hr
  rw [rowBody_eq] at hr
  split at hr
  · rename_i rs heq
    split at heq
    · simp only [Except.ok.injEq] at heq
      subst heq
      cases hr
    · split at heq
      · cases heq
      split at heq
      · cases heq
      split at heq
      · cases heq
      split at heq
      · cases heq
      split at heq
      · cases heq
      split at heq
      · cases heq
      simp only [List.nil_append, Except.ok.injEq] at heq
      subst heq
      simp only [List.mem_singleton] at hr
      subst hr
      rfl
  · cases hr

/-- C6: when every course extracts without failure, `getTimeSchedule` returns
the records of the courses one after the other in the order of the course
list, those of a course being the records of the rows of its table in row
order, and every record carries the id of its course. -/
theorem getTimeSchedule_concat (db : SourceDB) (parse : GoString → Option Node)
    (courses : List Course) (h : ∀ c ∈ courses, ∃ rs, courseBody db parse [] c = .ok rs) :
    getTimeSchedule db parse courses = .ok (courses.flatMap (courseRecords db parse)) ∧
    (∀ c ∈ courses, ∃ src root, db.rawDetail c.rootNumber c.sn = some src ∧
      parse src = some root ∧
      courseRecords db parse c =
        (Find (selectTable root) "tr".toList).flatMap (rowRecords c)) ∧
    (∀ c ∈ courses, ∀ r ∈ courseRecords db parse c, r.courseId = c.id) := by
  have key : ∀ c ∈ courses, ∃ src root, db.rawDetail c.rootNumber c.sn = some src ∧
      parse src = some root ∧
      courseRecords db parse c =
        (Find (selectTable root) "tr".toList).flatMap (rowRecords c) := by
    intro c hc
    obtain ⟨rs, hrs⟩ := h c hc
    have hrec : courseRecords db parse c = rs := by simp [courseRecords, hrs]
    obtain ⟨src, root, hsrc, hroot, hex⟩ := courseBody_ok_inv db parse c [] rs hrs
    exact ⟨src, root, hsrc, hroot, by rw [hrec]; exact rowLoop_records c _ rs hex⟩
  refine ⟨courseLoop_records db parse courses h, key, ?_⟩
  intro c hc r hr
  obtain ⟨src, root, _, _, hrec⟩ := key c hc
  rw [hrec] at hr
  obtain ⟨tr, _, htr⟩ := List.mem_flatMap.1 hr
  exact rowRecords_courseId c tr r htr


/-! ## The selection of the table -/

theorem enumFrom_filter_snd {α : Type} (g : α → Bool) (s : List α) (n : Nat) :
    ((List.enumFrom n s).filter (fun p => g p.2)).map (fun p => p.2) = s.filter g := by
  induction s generalizing n with
  | nil => rfl
  | cons x xs ih =>
    simp only [List.enumFrom_cons, List.filter_cons]
    by_cases hx : g x = true
    · simp only [hx, if_true, List.map_cons, ih]
    · simp only [hx, Bool.false_eq_true, if_false, ih]

theorem FilterFunction_tableFilter (s : Selection) :
    FilterFunction s tableFilter = s.filter (fun r => tableFilter 0 [r]) := by
  unfold FilterFunction
  exact enumFrom_filter_snd (fun r => tableFilter 0 [r]) s 0

/-- The selection step: the first table that passes the filter, if any. -/
theorem selectTable_eq (root : Node) :
    selectTable root = ((allTables root).filter (fun r => tableFilter 0 [r])).take 1 := by
  unfold selectTable First allTables
  simp only []
  rw [FilterFunction_tableFilter]

theorem Find_nil (tag : GoString) : Find [] tag = [] := rfl

mutual
theorem matchAllInto_nodes (m : Node → Bool) (path : List Nat) :
    ∀ n : Node, (matchAllInto m path n).map (fun r => r.node) = (n :: descendants n).filter m
  | .mk t d a cs => by
    rw [matchAllInto, descendants, List.map_append, matchAllChildren_nodes m path 0 cs,
      List.filter_cons]
    split <;> simp
theorem matchAllChildren_nodes (m : Node → Bool) (path : List Nat) (i : Nat) :
    ∀ cs : List Node,
      (matchAllChildren m path i cs).map (fun r => r.node) = (descendantsOfList cs).filter m
  | [] => by simp [matchAllChildren, descendantsOfList]
  | c :: cs => by
    rw [matchAllChildren, descendantsOfList, List.map_append, matchAllInto_nodes m _ c,
      matchAllChildren_nodes m path (i + 1) cs, ← List.cons_append, List.filter_append]
end

mutual
theorem matchAllInto_prefix (m : Node → Bool) (path : List Nat) :
    ∀ n : Node, ∀ r ∈ matchAllInto m path n, path <+: r.path
  | .mk t d a cs => by
    intro r hr
    rw [matchAllInto, List.mem_append] at hr
    rcases hr with hr | hr
    · split at hr
      · simp only [List.mem_singleton] at hr
        subst hr
        exact List.prefix_refl _
      · cases hr
    · obtain ⟨j, _, hj⟩ := matchAllChildren_prefix m path 0 cs r hr
      exact List.IsPrefix.trans (List.prefix_append _ _) hj
theorem matchAllChildren_prefix (m : Node → Bool) (path : List Nat) (i : Nat) :
    ∀ cs : List Node, ∀ r ∈ matchAllChildren m path i cs, ∃ j, i ≤ j ∧ (path ++ [j]) <+: r.path
  | [] => by
    intro r hr
    simp [matchAllChildren] at hr
  | c :: cs => by
    intro r hr
    rw [matchAllChildren, List.mem_append] at hr
    rcases hr with hr | hr
    · exact ⟨i, Nat.le_refl _, matchAllInto_prefix m _ c r hr⟩
    · obtain ⟨j, hj, hp⟩ := matchAllChildren_prefix m path (i + 1) cs r hr
      exact ⟨j, by omega, hp⟩
end

theorem prefix_index_unique (path l : List Nat) (i j : Nat) (hi : (path ++ [i]) <+: l)
    (hj : (path ++ [j]) <+: l) : i = j := by
  have h := List.prefix_of_prefix_length_le hi hj (by simp)
  have he := List.IsPrefix.eq_of_length h (by simp)
  simpa using he

mutual
theorem matchAllInto_nodup (m : Node → Bool) (path : List Nat) :
    ∀ n : Node, ((matchAllInto m path n).map (fun r => r.path)).Nodup
  | .mk t d a cs => by
    rw [matchAllInto, List.map_append, List.nodup_append]
    refine ⟨by split <;> simp, matchAllChildren_nodup m path 0 cs, ?_⟩
    intro p hp1 hp2
    obtain ⟨r, hr, rfl⟩ := List.mem_map.1 hp2
    obtain ⟨j, _, hj⟩ := matchAllChildren_prefix m path 0 cs r hr
    have hlen := hj.length_le
    split at hp1
    · simp only [List.map_cons, List.map_nil, List.mem_singleton] at hp1
      rw [hp1] at hlen
      simp at hlen
    · simp at hp1
theorem matchAllChildren_nodup (m : Node → Bool) (path : List Nat) (i : Nat) :
    ∀ cs : List Node, ((matchAllChildren m path i cs).map (fun r => r.path)).Nodup
  | [] => by simp [matchAllChildren]
  | c :: cs => by
    rw [matchAllChildren, List.map_append, List.nodup_append]
    refine ⟨matchAllInto_nodup m _ c, matchAllChildren_nodup m path (i + 1) cs, ?_⟩
    intro p hp1 hp2
    obtain ⟨r1, hr1, rfl⟩ := List.mem_map.1 hp1
    obtain ⟨r2, hr2, he⟩ := List.mem_map.1 hp2
    have h1 := matchAllInto_prefix m _ c r1 hr1
    obtain ⟨j, hj, h2⟩ := matchAllChildren_prefix m path (i + 1) cs r2 hr2
    have he2 : r2.path = r1.path := he
    rw [he2] at h2
    have := prefix_index_unique path _ i j h1 h2
    omega
end

theorem appendWithoutDuplicates_of_nodup (target nodes : List Ref)
    (h : ((target ++ nodes).map (fun r => r.path)).Nodup) :
    appendWithoutDuplicates target nodes = target ++ nodes := by
  induction nodes generalizing target with
  | nil => simp [appendWithoutDuplicates]
  | cons n ns ih =>
    have hn : ¬ (target.any (fun t => decide (t.path = n.path)) = true) := by
      intro hany
      obtain ⟨t, ht, hp⟩ := List.any_eq_true.1 hany
      have hp2 : t.path = n.path := of_decide_eq_true hp
      rw [List.map_append, List.nodup_append] at h
      exact h.2.2 (List.mem_map.2 ⟨t, ht, rfl⟩)
        (List.mem_map.2 ⟨n, List.mem_cons_self _ _, hp2.symm⟩)
    have h2 : (((target ++ [n]) ++ ns).map (fun r => r.path)).Nodup := by
      simpa using h
    have := ih (target ++ [n]) h2
    unfold appendWithoutDuplicates at this ⊢
    rw [List.foldl_cons, if_neg hn, this]
    simp

theorem elementsOnly_children (n : Node) (h : elementsOnly n = true) :
    elementsOnlyList n.children = true := by
  cases n with
  | mk t d a cs =>
    rw [elementsOnly, Bool.and_eq_true] at h
    exact h.2

theorem matchAllInto_leaf (tag : GoString) (path : List Nat) (c : Node)
    (hc : elementsOnly c = true) (ht : c.type ≠ NodeType.ElementNode) :
    matchAllInto (typeSelector tag) path c = [] := by
  cases c with
  | mk t d a cs =>
    have ht2 : t ≠ NodeType.ElementNode := ht
    rw [elementsOnly, Bool.and_eq_true, Bool.or_eq_true] at hc
    have hcs : cs = [] := by
      rcases hc.1 with h | h
      · exact absurd (of_decide_eq_true h) ht2
      · simpa using h
    subst hcs
    simp [matchAllInto, matchAllChildren, typeSelector, Node.type, ht2]

theorem flatMap_children (tag : GoString) (path : List Nat) (i : Nat) (cs : List Node)
    (h : elementsOnlyList cs = true) :
    ((childRefsFrom path i cs).filter
        (fun c => decide (c.node.type = NodeType.ElementNode))).flatMap
        (MatchAll (typeSelector tag)) =
      matchAllChildren (typeSelector tag) path i cs := by
  induction cs generalizing i with
  | nil => rfl
  | cons c cs ih =>
    rw [elementsOnlyList, Bool.and_eq_true] at h
    rw [childRefsFrom, matchAllChildren, List.filter_cons]
    by_cases hc : c.type = NodeType.ElementNode
    · simp only [hc, decide_True, if_true, List.flatMap_cons, MatchAll]
      rw [ih (i + 1) h.2]
    · simp only [hc, decide_False, Bool.false_eq_true, if_false]
      rw [ih (i + 1) h.2, matchAllInto_leaf tag _ c h.1 hc]
      rfl

/-- What `Find` finds below one node of a parsed document: the matching
elements below it, in document order. -/
theorem Find_single (r : Ref) (tag : GoString) (h : elementsOnlyList r.node.children = true) :
    Find [r] tag = matchAllChildren (typeSelector tag) r.path 0 r.node.children := by
  unfold Find findWithMatcher mapNodes childRefs
  simp only [List.foldl_cons, List.foldl_nil]
  rw [flatMap_children tag r.path 0 _ h]
  rw [appendWithoutDuplicates_of_nodup _ _ (by
    simpa using matchAllChildren_nodup (typeSelector tag) r.path 0 r.node.children)]
  rfl

theorem Find_single_nodes (r : Ref) (tag : GoString)
    (h : elementsOnlyList r.node.children = true) :
    (Find [r] tag).map (fun x => x.node) = (descendants r.node).filter (typeSelector tag) := by
  rw [Find_single r tag h, matchAllChildren_nodes]
  cases r.node with
  | mk t d a cs => rfl

mutual
theorem elementsOnly_descendants :
    ∀ n : Node, elementsOnly n = true → ∀ x ∈ descendants n, elementsOnly x = true
  | .mk t d a cs => by
    intro h x hx
    rw [descendants] at hx
    exact elementsOnlyList_descendants cs (elementsOnly_children _ h) x hx
theorem elementsOnlyList_descendants :
    ∀ cs : List Node, elementsOnlyList cs = true →
      ∀ x ∈ descendantsOfList cs, elementsOnly x = true
  | [] => by
    intro _ x hx
    simp [descendantsOfList] at hx
  | c :: cs => by
    intro h x hx
    rw [elementsOnlyList, Bool.and_eq_true] at h
    rw [descendantsOfList, List.mem_cons, List.mem_append] at hx
    rcases hx with rfl | hx | hx
    · exact h.1
    · exact elementsOnly_descendants c h.1 x hx
    · exact elementsOnlyList_descendants cs h.2 x hx
end

theorem find?_isSome_any {α : Type} (p : α → Bool) (l : List α) :
    (l.find? p).isSome = l.any p := by
  induction l with
  | nil => rfl
  | cons x xs ih =>
    rw [List.find?_cons, List.any_cons]
    cases hx : p x <;> simp [ih]

theorem head?_filter_eq_find? {α : Type} (p : α → Bool) (l : List α) :
    (l.filter p).head? = l.find? p := by
  induction l with
  | nil => rfl
  | cons x xs ih =>
    rw [List.filter_cons, List.find?_cons]
    cases hx : p x <;> simp [ih]

/-- The filter of the code on a table of a parsed document is the test
`passesTest`: a border attribute, and exactly 9 `col` elements below the first
`colgroup` element below the table. -/
theorem tableFilter_eq (i : Nat) (t : Ref) (h : elementsOnly t.node = true) :
    tableFilter i [t] = passesTest t.node := by
  have hb : (Attr [t] "border".toList).isSome = hasBorder t.node := by
    simp only [Attr, hasBorder, Option.isSome_map']
    exact find?_isSome_any _ _
  have hkids := elementsOnly_children _ h
  have hg := Find_single_nodes t "colgroup".toList hkids
  have hhead := head?_filter_eq_find? (typeSelector "colgroup".toList) (descendants t.node)
  unfold tableFilter passesTest firstColgroup
  simp only [hb]
  congr 1
  rw [← hhead, ← hg]
  cases hf : Find [t] "colgroup".toList with
  | nil => rfl
  | cons g gs =>
    have hgnode : g.node ∈ descendants t.node := by
      have : g.node ∈ (Find [t] "colgroup".toList).map (fun x => x.node) := by
        rw [hf]; simp
      rw [hg] at this
      exact (List.mem_filter.1 this).1
    have hgo := elementsOnly_descendants t.node h g.node hgnode
    have hcols := Find_single_nodes g "col".toList (elementsOnly_children _ hgo)
    simp only [First, List.take_succ_cons, List.take_zero, List.map_cons, List.head?_cons]
    rw [← hcols, List.length_map]
    rw [Bool.eq_iff_iff]
    simp

/-- The tables of a parsed document are its `table` elements in document order. -/
theorem allTables_nodes (root : Node) (h : wellFormed root = true) :
    (allTables root).map (fun t => t.node) =
      (descendants root).filter (typeSelector "table".toList) :=
  Find_single_nodes ⟨[], root⟩ "table".toList h

theorem allTables_elementsOnly (root : Node) (h : wellFormed root = true) (t : Ref)
    (ht : t ∈ allTables root) : elementsOnly t.node = true := by
  have hmem : t.node ∈ (allTables root).map (fun t => t.node) := List.mem_map.2 ⟨t, ht, rfl⟩
  rw [allTables_nodes root h] at hmem
  have hd := (List.mem_filter.1 hmem).1
  cases root with
  | mk ty d a cs => exact elementsOnlyList_descendants cs h t.node hd

theorem find?_append_of_none {α : Type} (p : α → Bool) (l1 l2 : List α)
    (h : ∀ x ∈ l1, p x = false) : (l1 ++ l2).find? p = l2.find? p := by
  induction l1 with
  | nil => rfl
  | cons x xs ih =>
    rw [List.cons_append, List.find?_cons, h x (List.mem_cons_self _ _)]
    exact ih (fun y hy => h y (List.mem_cons_of_mem _ hy))

theorem find?_append_of_some {α : Type} (p : α → Bool) (l1 l2 : List α) (g : α)
    (h : l1.find? p = some g) : (l1 ++ l2).find? p = some g := by
  induction l1 with
  | nil => cases h
  | cons x xs ih =>
    rw [List.cons_append, List.find?_cons]
    rw [List.find?_cons] at h
    cases hx : p x with
    | true => rw [hx] at h; exact h
    | false => rw [hx] at h; exact ih h

/-- C1, as amended: in a document as the HTML parser builds it, the tables are
its `table` elements in document order, and the selection step returns the
first of them that passes the test of the code: a border attribute, and
exactly 9 `col` elements below the first `colgroup` element below the table.
So when exactly one table passes the test, it is the table selected, wherever
the tables that fail the test stand.  The test looks at all that is below a
table: a bordered table around a table that passes, with no `colgroup` before
it, passes as well. -/
theorem selectTable_first_passing (root : Node) (hwf : wellFormed root = true) :
    (allTables root).map (fun t => t.node) =
        (descendants root).filter (typeSelector "table".toList) ∧
    selectTable root = ((allTables root).filter (fun t => passesTest t.node)).take 1 ∧
    (∀ t ∈ allTables root, passesTest t.node = true →
      (∀ u ∈ allTables root, passesTest u.node = true → u = t) → selectTable root = [t]) ∧
    (∀ (outer inner : Node) (before after : List Node),
      descendants outer = before ++ inner :: (descendants inner ++ after) →
      (∀ x ∈ before, typeSelector "colgroup".toList x = false) →
      typeSelector "colgroup".toList inner = false →
      hasBorder outer = true → passesTest inner = true → passesTest outer = true) := by
  have hsel : selectTable root = ((allTables root).filter (fun t => passesTest t.node)).take 1 := by
    rw [selectTable_eq]
    congr 1
    apply List.filter_congr
    intro t ht
    exact tableFilter_eq 0 t (allTables_elementsOnly root hwf t ht)
  refine ⟨allTables_nodes root hwf, hsel, ?_, ?_⟩
  · intro t ht hpass huniq
    rw [hsel]
    have hmem : t ∈ (allTables root).filter (fun r => passesTest r.node) :=
      List.mem_filter.2 ⟨ht, hpass⟩
    cases hl : (allTables root).filter (fun r => passesTest r.node) with
    | nil => rw [hl] at hmem; cases hmem
    | cons x xs =>
      have hx : x ∈ (allTables root).filter (fun r => passesTest r.node) := by
        rw [hl]; exact List.mem_cons_self x xs
      obtain ⟨hx1, hx2⟩ := List.mem_filter.1 hx
      rw [huniq x hx1 hx2]
      rfl
  · intro outer inner before after hd hbefore hinner hb hp
    unfold passesTest at hp ⊢
    rw [Bool.and_eq_true] at hp ⊢
    refine ⟨hb, ?_⟩
    have hfirst : firstColgroup outer = firstColgroup inner := by
      cases hg : firstColgroup inner with
      | none => rw [hg] at hp; exact absurd hp.2 (by simp)
      | some g =>
        unfold firstColgroup at hg ⊢
        rw [hd, find?_append_of_none _ _ _ hbefore, List.find?_cons, hinner]
        exact find?_append_of_some _ _ _ g hg
    rw [hfirst]
    exact hp.2

/-- C2, as amended: when no table of the document passes the filter, the
selection is empty, no row is walked, and the course adds no record and
reports nothing: the result built so far is returned as it is, and the loop
over the courses goes on from it. -/
theorem no_matching_table (root : Node) (c : Course) (result : List CourseDate)
    (h : ∀ t ∈ allTables root, tableFilter 0 [t] = false) :
    selectTable root = [] ∧ extractDocument c root result = .ok result ∧
    (∀ (db : SourceDB) (parse : GoString → Option Node) (src : GoString),
      db.rawDetail c.rootNumber c.sn = some src → parse src = some root →
      courseBody db parse result c = .ok result) := by
  have hs : selectTable root = [] := by
    rw [selectTable_eq]
    have : (allTables root).filter (fun r => tableFilter 0 [r]) = [] := by
      rw [List.filter_eq_nil_iff]
      intro t ht
      simp [h t ht]
    rw [this]
    rfl
  have hex : extractDocument c root result = .ok result := by
    unfold extractDocument
    simp only [hs, Find_nil]
    rfl
  refine ⟨hs, hex, ?_⟩
  intro db parse src hsrc hroot
  rw [courseBody_of db parse c result src root hsrc hroot]
  exact hex

/-! ## The lecturers -/

theorem mapSet_nodup (m : List GoString) (k : GoString) (h : m.Nodup) : (mapSet m k).Nodup := by
  unfold mapSet
  split
  · exact h
  · rename_i hk
    rw [List.nodup_append]
    exact ⟨h, List.nodup_singleton k, by
      intro a ha hb
      simp only [List.mem_singleton] at hb
      subst hb
      exact hk ha⟩

theorem mem_mapSet (m : List GoString) (k x : GoString) : x ∈ mapSet m k ↔ x ∈ m ∨ x = k := by
  unfold mapSet
  split
  · rename_i hk
    constructor
    · exact Or.inl
    · rintro (h | rfl)
      · exact h
      · exact hk
  · simp

theorem piecesLoop_spec (pieces : List GoString) (m : List GoString) (h : m.Nodup) :
    (pieces.foldl (fun lecturers n => mapSet lecturers (TrimSpace n)) m).Nodup ∧
    ∀ x, x ∈ pieces.foldl (fun lecturers n => mapSet lecturers (TrimSpace n)) m ↔
      x ∈ m ∨ ∃ n ∈ pieces, x = TrimSpace n := by
  induction pieces generalizing m with
  | nil => exact ⟨h, by simp⟩
  | cons p ps ih =>
    obtain ⟨h1, h2⟩ := ih (mapSet m (TrimSpace p)) (mapSet_nodup m _ h)
    refine ⟨h1, ?_⟩
    intro x
    rw [List.foldl_cons, h2, mem_mapSet]
    simp only [List.mem_cons, exists_eq_or_imp]
    tauto

theorem rowsLoop_spec (rows : List GoString) (m : List GoString) (h : m.Nodup) :
    (rows.foldl (fun lecturers name =>
      (Split name ',').foldl (fun lecturers n => mapSet lecturers (TrimSpace n)) lecturers) m).Nodup ∧
    ∀ x, x ∈ rows.foldl (fun lecturers name =>
      (Split name ',').foldl (fun lecturers n => mapSet lecturers (TrimSpace n)) lecturers) m ↔
      x ∈ m ∨ ∃ row ∈ rows, ∃ n ∈ Split row ',', x = TrimSpace n := by
  induction rows generalizing m with
  | nil => exact ⟨h, by simp⟩
  | cons r rs ih =>
    obtain ⟨p1, p2⟩ := piecesLoop_spec (Split r ',') m h
    obtain ⟨h1, h2⟩ := ih _ p1
    refine ⟨h1, ?_⟩
    intro x
    rw [List.foldl_cons, h2, p2]
    simp only [List.mem_cons, exists_eq_or_imp]
    exact or_assoc

theorem foldl_append_singleton {α β : Type} (f : α → β) (l : List α) (acc : List β) :
    l.foldl (fun result k => result ++ [f k]) acc = acc ++ l.map f := by
  induction l generalizing acc with
  | nil => simp
  | cons x xs ih => simp [ih]

theorem splitLoop_ne_nil (sep : Char) (s cur : GoString) : splitLoop sep s cur ≠ [] := by
  induction s generalizing cur with
  | nil => simp [splitLoop]
  | cons c rest ih =>
    rw [splitLoop]
    split
    · simp
    · exact ih _

theorem splitLoop_spec (sep : Char) (s cur : GoString) (hcur : sep ∉ cur) :
    (∀ p ∈ splitLoop sep s cur, sep ∉ p) ∧ joinWith sep (splitLoop sep s cur) = cur ++ s := by
  induction s generalizing cur with
  | nil => simp [splitLoop, hcur, joinWith]
  | cons c rest ih =>
    rw [splitLoop]
    by_cases hc : c = sep
    · subst hc
      simp only [if_true]
      obtain ⟨h1, h2⟩ := ih [] (by simp)
      refine ⟨?_, ?_⟩
      · intro p hp
        rcases List.mem_cons.1 hp with rfl | hp
        · exact hcur
        · exact h1 p hp
      · cases hsl : splitLoop c rest [] with
        | nil => exact absurd hsl (splitLoop_ne_nil c rest [])
        | cons q qs =>
          rw [hsl] at h2
          rw [joinWith, h2]
          rfl
    · simp only [hc, if_false]
      obtain ⟨h1, h2⟩ := ih (cur ++ [c]) (by
        simp only [List.mem_append, List.mem_singleton, not_or]
        exact ⟨hcur, fun h => hc h.symm⟩)
      exact ⟨h1, by rw [h2]; simp⟩

/-- The pieces of `Split` are the comma-separated components of the text:
none holds the separator, and joined by the separator they give the text back. -/
theorem Split_components (s : GoString) (sep : Char) :
    (∀ p ∈ Split s sep, sep ∉ p) ∧ joinWith sep (Split s sep) = s := by
  have := splitLoop_spec sep s [] (by simp)
  simpa [Split] using this

/-- C10: whatever the order in which the map is walked, `normalizeLecturers`
returns no name twice, the names returned are exactly the trimmed pieces of
the rows split at the commas, and every entry has id 0. -/
theorem normalizeLecturers_names (rangeOrder : List GoString → List GoString) (db : SourceDB)
    (horder : (rangeOrder (lecturerKeys db.lecturerRows)).Perm (lecturerKeys db.lecturerRows)) :
    ((normalizeLecturers rangeOrder db).map (fun l => l.name)).Nodup ∧
    (∀ x, x ∈ (normalizeLecturers rangeOrder db).map (fun l => l.name) ↔
      ∃ row ∈ db.lecturerRows, ∃ n ∈ Split row ',', x = TrimSpace n) ∧
    (∀ l ∈ normalizeLecturers rangeOrder db, l.id = 0) := by
  obtain ⟨h1, h2⟩ := rowsLoop_spec db.lecturerRows [] List.nodup_nil
  have hn : (normalizeLecturers rangeOrder db).map (fun l => l.name) =
      rangeOrder (lecturerKeys db.lecturerRows) := by
    unfold normalizeLecturers
    rw [foldl_append_singleton (fun k => ({ id := 0, name := k } : Lecturer))]
    simp [List.map_map, Function.comp_def]
  refine ⟨?_, ?_, ?_⟩
  · rw [hn]
    exact horder.nodup_iff.2 h1
  · intro x
    rw [hn, horder.mem_iff]
    have := h2 x
    simpa [lecturerKeys] using this
  · intro l hl
    unfold normalizeLecturers at hl
    rw [foldl_append_singleton (fun k => ({ id := 0, name := k } : Lecturer))] at hl
    simp only [List.nil_append, List.mem_map] at hl
    obtain ⟨k, _, rfl⟩ := hl
    rfl


/-! ## The claims at the example documents -/

/-- C1 fails as stated: in `enclosedDocument` one table only declares a
border and a column group of 9 columns, the schedule at `[0, 1, 0, 0, 0, 0, 0]`,
and the selection step returns the bordered layout table around it, at
`[0, 1, 0]`, which declares no column group; the rows of the schedule are
then read with the cells of the layout table in front and the run ends. -/
theorem selectTable_enclosed_counterexample :
    ((allTables enclosedDocument).filter declaresFingerprint).map (fun t => t.path) =
        [[0, 1, 0, 0, 0, 0, 0]] ∧
      (selectTable enclosedDocument).map (fun t => t.path) = [[0, 1, 0]] ∧
      extractDocument ⟨7, 1, 2, []⟩ enclosedDocument [] = .error Fatal.dateTimeParse :=
  ⟨by decide, by decide, by rfl⟩

/-- The five tables of `surroundedDocument`. -/
theorem surroundedDocument_tables : (allTables surroundedDocument).length = 5 := by
  decide

/-- C1, as amended, at `surroundedDocument`: of its five tables the third is
selected, with a table before it, a bordered one around it, one inside it and
a bordered one after it; and the bordered table around the schedule of
`enclosedDocument` passes the test. -/
theorem selectTable_first_passing_witness :
    (allTables surroundedDocument).map (fun t => t.path) =
        [[0, 1, 0], [0, 1, 1], [0, 1, 1, 1, 0, 0, 0], [0, 1, 1, 1, 0, 0, 0, 1, 0, 0, 0],
         [0, 1, 2]] ∧
      (selectTable surroundedDocument).map (fun t => t.path) = [[0, 1, 1, 1, 0, 0, 0]] ∧
      passesTest enclosingTable = true := by
  have h := selectTable_first_passing surroundedDocument (by decide)
  have hsel := h.2.2.1
    ((allTables surroundedDocument).get ⟨2, by rw [surroundedDocument_tables]; decide⟩)
    (List.get_mem _ _ _) (by rfl)
    (by
      intro u hu hp
      obtain ⟨⟨i, hi⟩, rfl⟩ := List.get_of_mem hu
      have hi5 : i < 5 := by rw [surroundedDocument_tables] at hi; exact hi
      interval_cases i
      · exact absurd (show true = false from Eq.trans (Eq.symm hp) (by rfl)) (by decide)
      · exact absurd (show true = false from Eq.trans (Eq.symm hp) (by rfl)) (by decide)
      · rfl
      · exact absurd (show true = false from Eq.trans (Eq.symm hp) (by rfl)) (by decide)
      · exact absurd (show true = false from Eq.trans (Eq.symm hp) (by rfl)) (by decide))
  have hout := h.2.2.2 enclosingTable enclosedSchedule
    [enclosingBody, enclosingRow, enclosingCell] [] (by rfl) (by decide) (by decide) (by decide)
    (by decide)
  refine ⟨by decide, ?_, hout⟩
  rw [hsel]
  rfl

/-- C2 fails as stated: no table of `plainDocument` has a border and 9
columns, and its extraction is no failure: it returns no record and the run
goes on to return the empty result. -/
theorem no_table_no_failure_counterexample :
    (allTables plainDocument).all (fun t => !declaresFingerprint t && !tableFilter 0 [t]) = true ∧
      extractDocument ⟨14, 4, 1, []⟩ plainDocument [] = .ok [] ∧
      getTimeSchedule exampleDB exampleParse [⟨14, 4, 1, []⟩] = .ok [] := by
  refine ⟨by decide, by rfl, by rfl⟩

/-- C2, as amended, at `plainDocument`. -/
theorem no_matching_table_witness :
    selectTable plainDocument = [] ∧
      extractDocument ⟨14, 4, 1, []⟩ plainDocument [] = .ok [] :=
  have h := no_matching_table plainDocument ⟨14, 4, 1, []⟩ [] (by
    intro t ht
    obtain ⟨⟨i, hi⟩, rfl⟩ := List.get_of_mem ht
    have hlen : (allTables plainDocument).length = 1 := by decide
    have hi1 : i < 1 := by rw [hlen] at hi; exact hi
    interval_cases i
    rfl)
  ⟨h.1, h.2.1⟩

/-- A time with a one-digit hour is not written `HH:MM`. -/
theorem not_SpecDateTime_one_digit_hour : ¬ SpecDateTime "5/3/2024 9:00".toList := by
  rintro ⟨d, m, y, h, mi, _, ⟨hh, _⟩, hs⟩
  have h4 := congrArg (fun l => l.reverse.get? 4) hs
  simp [renderTime, twoDigits] at h4
  have h3 : h / 10 < 3 := by omega
  interval_cases (h / 10) <;> simp [digitChar] at h4

/-- C3 fails as stated: the begin cell `9:00` has no zero-padded hour, so the
composed text does not conform to `D/M/YYYY` + `HH:MM`, and the row is
extracted without any failure, starting at 09:00. -/
theorem lenient_text_counterexample :
    cellText ⟨[0, 1, 0, 1, 0],
        dataRow ["1", "Tue", "5/3/2024", "9:00", "11:30", "No", "", "", ""]⟩ 2 =
      some "5/3/2024".toList ∧
    cellText ⟨[0, 1, 0, 1, 0],
        dataRow ["1", "Tue", "5/3/2024", "9:00", "11:30", "No", "", "", ""]⟩ 3 =
      some "9:00".toList ∧
    ¬ SpecDateTime ("5/3/2024".toList ++ " ".toList ++ "9:00".toList) ∧
    extractDocument ⟨7, 1, 2, []⟩ lenientDocument [] =
      .ok [{ id := 0, courseId := 7, from_ := Date 2024 3 5 9 0, to_ := Date 2024 3 5 11 30,
             assessment := false }] :=
  ⟨by rfl, by rfl, not_SpecDateTime_one_digit_hour, by rfl⟩

/-- C3, as amended: when the begin text or the end text of a row of the
selected table is not one the layout accepts (see `Accepted`: one or two
digits of day and of month, zero-padded or not, four digits of year, one or
more blanks, one or two digits of hour, two digits of minute, all in range),
the body of the loop ends that row with the date-time parse error, and the
document and the whole call end in a failure: no record is returned. -/
theorem bad_date_time_aborts (db : SourceDB) (parse : GoString → Option Node)
    (courses : List Course) (c : Course) (src : GoString) (root : Node) (tr : Ref)
    (a b : GoString)
    (hc : c ∈ courses) (hsrc : db.rawDetail c.rootNumber c.sn = some src)
    (hroot : parse src = some root) (htr : tr ∈ Find (selectTable root) "tr".toList)
    (ha : cellText tr 2 = some a) (hb : cellText tr 3 = some b)
    (hbad : (¬ ∃ t, Accepted (a ++ " ".toList ++ b) t) ∨
      (∃ e, cellText tr 4 = some e ∧ ¬ ∃ t, Accepted (a ++ " ".toList ++ e) t)) :
    (∀ result, rowBody c result tr = .error Fatal.dateTimeParse) ∧
    (∀ result, ∃ f, extractDocument c root result = .error f) ∧
    (∃ f, getTimeSchedule db parse courses = .error f) := by
  have hrow : ∀ result, rowBody c result tr = .error Fatal.dateTimeParse := by
    intro result
    have hn : (rowCells tr).length ≠ 0 := by
      intro h0
      have := (cellText_eq_none tr 2).2 (by omega)
      rw [this] at ha
      cases ha
    rw [rowBody_eq]
    simp only [hn, if_false, show cellText tr ColDate = some a from ha,
      show cellText tr ColBeg = some b from hb]
    rcases hbad with hbeg | ⟨e, he, hend⟩
    · have hp : Parse (a ++ " ".toList ++ b) = none := by
        cases hp : Parse (a ++ " ".toList ++ b) with
        | none => rfl
        | some t => exact absurd ⟨t, Parse_sound _ _ hp⟩ hbeg
      simp only [hp]
    · have hp : Parse (a ++ " ".toList ++ e) = none := by
        cases hp : Parse (a ++ " ".toList ++ e) with
        | none => rfl
        | some t => exact absurd ⟨t, Parse_sound _ _ hp⟩ hend
      simp only [show cellText tr ColEnd = some e from he, hp]
      cases Parse (a ++ " ".toList ++ b) <;> rfl
  have hdoc : ∀ result, ∃ f, extractDocument c root result = .error f :=
    rowLoop_error c _ tr htr (fun result => ⟨_, hrow result⟩)
  refine ⟨hrow, hdoc, ?_⟩
  exact courseLoop_error db parse courses c hc
    (fun result => by
      rw [courseBody_of db parse c result src root hsrc hroot]
      exact hdoc result) []

/-- The two rows of `invalidBeginDocument`. -/
theorem invalidBeginDocument_rows :
    (Find (selectTable invalidBeginDocument) "tr".toList).length = 2 := by
  decide

/-- No text that ends in `invalid` is accepted. -/
theorem not_Accepted_invalid (a : GoString) (t : Time) :
    ¬ Accepted (a ++ " ".toList ++ "invalid".toList) t := by
  rintro ⟨d, m, y, h, mi, k, hs, _, _, _, _, hmi, _⟩
  have h0 := congrArg (fun l => l.reverse.get? 0) hs
  obtain ⟨hl, hdig⟩ := hmi
  match mi, hl, hdig with
  | [p, q], _, hdig =>
    have hq : isDigitByte q = true := hdig q (by simp)
    simp at h0
    rw [← h0] at hq
    simp [isDigitByte] at hq

/-- C3, as amended, at the begin cell `invalid` of the second row of the third
course: the two courses before it extract well and no record is returned. -/
theorem bad_date_time_aborts_witness :
    rowBody ⟨13, 3, 1, []⟩ []
        ((Find (selectTable invalidBeginDocument) "tr".toList).get
          ⟨1, by rw [invalidBeginDocument_rows]; decide⟩) = .error Fatal.dateTimeParse ∧
      getTimeSchedule exampleDB exampleParse
        (exampleCourses ++ [⟨13, 3, 1, []⟩]) = .error Fatal.dateTimeParse := by
  have h := bad_date_time_aborts exampleDB exampleParse (exampleCourses ++ [⟨13, 3, 1, []⟩])
    ⟨13, 3, 1, []⟩ "3".toList invalidBeginDocument
    ((Find (selectTable invalidBeginDocument) "tr".toList).get
      ⟨1, by rw [invalidBeginDocument_rows]; decide⟩)
    "6/3/2024".toList "invalid".toList
    (by simp [exampleCourses]) (by rfl) (by rfl) (List.get_mem _ _ _) (by rfl) (by rfl)
    (Or.inl (fun ⟨t, ht⟩ => not_Accepted_invalid _ t ht))
  exact ⟨h.1 [], by rfl⟩

/-- The two example courses extract without failure. -/
theorem exampleCourses_extract :
    ∀ c ∈ exampleCourses, ∃ rs, courseBody exampleDB exampleParse [] c = .ok rs := by
  intro c hc
  simp only [exampleCourses, List.mem_cons, List.mem_singleton, List.not_mem_nil, or_false] at hc
  rcases hc with rfl | rfl
  · exact ⟨_, rfl⟩
  · exact ⟨_, rfl⟩

/-- C6 at two courses of three data rows each: six records, the first three
of course 11 and the last three of course 12, in row order, the repeated row
of the second course kept twice. -/
theorem getTimeSchedule_concat_witness :
    getTimeSchedule exampleDB exampleParse exampleCourses =
        .ok (exampleCourses.flatMap (courseRecords exampleDB exampleParse)) ∧
      (exampleCourses.flatMap (courseRecords exampleDB exampleParse)).map
          (fun r => (r.courseId, r.from_.day, r.from_.hour)) =
        [(11, 5, 9), (11, 12, 9), (11, 19, 13), (12, 8, 10), (12, 8, 10), (12, 15, 8)] :=
  ⟨(getTimeSchedule_concat exampleDB exampleParse exampleCourses exampleCourses_extract).1,
    by decide⟩

/-- C8 fails as stated: a row with begin `11:30` and end `09:00` is extracted
into a record that starts after it ends. -/
theorem start_after_end_counterexample :
    extractDocument ⟨7, 1, 2, []⟩ lateStartDocument [] =
        .ok [{ id := 0, courseId := 7, from_ := Date 2024 3 5 11 30, to_ := Date 2024 3 5 9 0,
               assessment := false }] ∧
      ¬ (Date 2024 3 5 11 30).le (Date 2024 3 5 9 0) :=
  ⟨by rfl, by decide⟩

/-- C8, as amended, at the row of the specification. -/
theorem record_same_date_witness :
    ∃ cd : CourseDate,
      [{ id := 0, courseId := 7, from_ := Date 2024 3 5 9 0, to_ := Date 2024 3 5 11 30,
         assessment := false }] = ([] : List CourseDate) ++ [cd] ∧
      cd.from_.year = cd.to_.year ∧ cd.from_.month = cd.to_.month ∧ cd.from_.day = cd.to_.day ∧
      (cd.from_.le cd.to_ ↔
        (cd.from_.hour < cd.to_.hour ∨ (cd.from_.hour = cd.to_.hour ∧ cd.from_.min ≤ cd.to_.min))) :=
  record_same_date ⟨7, 1, 2, []⟩ [] _ exampleRow (by decide) (by rfl)

/-- C9 fails as stated: a row of four data cells whose begin cell is
`invalid` is reported as a date-time parse error; the index out of range
that follows is never reached. -/
theorem four_cells_parse_error_counterexample :
    (rowCells fourCellRow).length = 4 ∧
      rowBody ⟨7, 1, 2, []⟩ [] fourCellRow = .error Fatal.dateTimeParse :=
  ⟨by decide, by rfl⟩

/-- C9, as amended, at a row of three data cells: the panic. -/
theorem rowBody_short_row_witness :
    rowBody ⟨7, 1, 2, []⟩ [] threeCellRow = .error Fatal.indexOutOfRange :=
  (rowBody_short_row ⟨7, 1, 2, []⟩ [] threeCellRow).2.1 (by decide) (by decide)

/-- C10 at the rows `A,,B`, `A, ` and ` C ,B`, the map walked backwards: four
lecturers, one of them with the empty name. -/
theorem normalizeLecturers_names_witness :
    normalizeLecturers List.reverse exampleDB =
        [⟨0, "C".toList⟩, ⟨0, "B".toList⟩, ⟨0, []⟩, ⟨0, "A".toList⟩] ∧
      ((normalizeLecturers List.reverse exampleDB).map (fun l => l.name)).Nodup ∧
      (∀ x, x ∈ (normalizeLecturers List.reverse exampleDB).map (fun l => l.name) ↔
        ∃ row ∈ exampleDB.lecturerRows, ∃ n ∈ Split row ',', x = TrimSpace n) ∧
      (∀ l ∈ normalizeLecturers List.reverse exampleDB, l.id = 0) :=
  ⟨by decide, normalizeLecturers_names List.reverse exampleDB (List.reverse_perm _)⟩

end Normalizer
